import Mathlib

/-!
Verification development for the Guardian comment-analysis pipeline
(`comment_analyzer.py`, `app.py`): comment selection, batch partitioning,
merge of per-batch commercial results, and the SSE pipeline flows.

Conventions of the embedding:
* Python strings are Lean `String`; `str.lower()` is modelled as `pyLower`
  (per-character `Char.toLower`, which agrees with Python on the ASCII
  inputs the pipeline handles).
* Python `dict` (insertion-ordered, string-keyed) is modelled as an
  association list `List (K × V)` with `alUpsert` / `alLookup`.
* `sorted(xs, key=f, reverse=True)` (a stable descending sort) is modelled
  by the stable insertion sort `sortByDesc`.
* Fallible code paths (Python exceptions) are modelled with `Option` /
  `Except`.
-/

namespace HotGossip

/-- Model of Python `str.lower()` (ASCII case folding, per character). -/
def pyLower (s : String) : String := ⟨s.data.map Char.toLower⟩

/-! ### Stable descending sort (Python `sorted(..., key=key, reverse=True)`)

Python's sort is stable, and with `reverse=True` elements with equal keys
keep their original relative order.  `insort` places `x` before the first
element whose key is `≤ key x`; since `sortByDesc` inserts from the right,
an element is inserted before all its ties, which are later in the
original list — exactly stable descending order. -/

section StableSort

variable {α : Type} {β : Type} [LinearOrder β] (key : α → β)

/-- Insert `x` into a (descending-sorted) list, before the first element
whose key is `≤ key x`. -/
def insort (x : α) : List α → List α
  | [] => [x]
  | y :: ys => if key y ≤ key x then x :: y :: ys else y :: insort x ys

/-- Stable descending insertion sort, the model of
`sorted(xs, key=key, reverse=True)`. -/
def sortByDesc : List α → List α
  | [] => []
  | x :: xs => insort key x (sortByDesc xs)

theorem insort_perm (x : α) (l : List α) : (insort key x l).Perm (x :: l) := by
  induction l with
  | nil => simp [insort]
  | cons y ys ih =>
    by_cases h : key y ≤ key x
    · simp [insort, h]
    · simp only [insort, if_neg h]
      exact (ih.cons y).trans (List.Perm.swap x y ys)

theorem sortByDesc_perm (l : List α) : (sortByDesc key l).Perm l := by
  induction l with
  | nil => simp [sortByDesc]
  | cons x xs ih =>
    exact (insort_perm key x (sortByDesc key xs)).trans (ih.cons x)

theorem sortByDesc_length (l : List α) : (sortByDesc key l).length = l.length :=
  (sortByDesc_perm key l).length_eq

theorem mem_insort {x z : α} {l : List α} (h : z ∈ insort key x l) :
    z = x ∨ z ∈ l := by
  have := (insort_perm key x l).mem_iff.mp h
  simpa using this

theorem insort_pairwise {x : α} {l : List α}
    (hl : l.Pairwise (fun a b => key b ≤ key a)) :
    (insort key x l).Pairwise (fun a b => key b ≤ key a) := by
  induction l with
  | nil => simp [insort]
  | cons y ys ih =>
    rcases List.pairwise_cons.mp hl with ⟨hy, hys⟩
    by_cases h : key y ≤ key x
    · simp only [insort, if_pos h]
      refine List.pairwise_cons.mpr ⟨?_, hl⟩
      intro z hz
      rcases List.mem_cons.mp hz with rfl | hz
      · exact h
      · exact le_trans (hy z hz) h
    · simp only [insort, if_neg h]
      refine List.pairwise_cons.mpr ⟨?_, ih hys⟩
      intro z hz
      rcases mem_insort key hz with hz | hz
      · subst hz
        exact le_of_lt (lt_of_not_le h)
      · exact hy z hz

theorem sortByDesc_sorted (l : List α) :
    (sortByDesc key l).Pairwise (fun a b => key b ≤ key a) := by
  induction l with
  | nil => simp [sortByDesc]
  | cons x xs ih => exact insort_pairwise key ih

/-- Stability of `insort`, phrased through `filter` on a key value. -/
theorem filter_insort (v : β) (x : α) (l : List α) :
    (insort key x l).filter (fun a => decide (key a = v))
      = if key x = v then x :: l.filter (fun a => decide (key a = v))
        else l.filter (fun a => decide (key a = v)) := by
  induction l with
  | nil =>
    by_cases hx : key x = v <;> simp [insort, List.filter, hx]
  | cons y ys ih =>
    rw [insort]
    by_cases h : key y ≤ key x
    · rw [if_pos h]
      by_cases hx : key x = v <;> simp [List.filter_cons, hx]
    · rw [if_neg h, List.filter_cons, ih, List.filter_cons]
      by_cases hx : key x = v
      · have hy : ¬ (key y = v) := fun hy => h (le_of_eq (hy.trans hx.symm))
        simp [hx, hy]
      · simp [hx]

/-- Stability of `sortByDesc`: elements with any fixed key value appear in
the output in the same order as in the input. -/
theorem sortByDesc_filter (v : β) (l : List α) :
    (sortByDesc key l).filter (fun a => decide (key a = v))
      = l.filter (fun a => decide (key a = v)) := by
  induction l with
  | nil => simp [sortByDesc]
  | cons x xs ih =>
    by_cases hx : key x = v
    · simp [sortByDesc, filter_insort, hx, ih, List.filter_cons]
    · simp [sortByDesc, filter_insort, hx, ih, List.filter_cons]

end StableSort

/-! ### Association lists: the model of Python's insertion-ordered `dict`

`alUpsert k upd seed m` updates the entry at `k` in place when present and
appends `(k, seed)` otherwise — exactly the behaviour of
`d[k] = ...` on a Python dict.  `insStep` is one iteration of the merge
loops in `merge_commercial_results`: compute the normalization key, skip
the record when the key is empty, otherwise update-or-seed. -/

section AssocList

variable {K : Type} [DecidableEq K] {V : Type} {β : Type}

/-- Update the entry of key `k` in place when present; append `(k, seed)`
otherwise (Python `d[k] = ...` insertion-order semantics). -/
def alUpsert (k : K) (upd : V → V) (seed : V) : List (K × V) → List (K × V)
  | [] => [(k, seed)]
  | (k', v) :: m => if k' = k then (k', upd v) :: m else (k', v) :: alUpsert k upd seed m

/-- Python `d.get(k)` / `k in d`. -/
def alLookup (k : K) : List (K × V) → Option V
  | [] => none
  | (k', v) :: m => if k' = k then some v else alLookup k m

/-- Python `list(d.keys())`. -/
def alKeys (m : List (K × V)) : List K := m.map Prod.fst

variable (keyf : β → Option K) (seed : β → V) (upd : V → β → V)

/-- One iteration of a merge loop over incoming records: skip records whose
normalization key is missing/empty (`keyf b = none`); otherwise seed the
entry on first occurrence and update it in place on later ones. -/
def insStep (m : List (K × V)) (b : β) : List (K × V) :=
  match keyf b with
  | none => m
  | some k => alUpsert k (fun v => upd v b) (seed b) m

/-- The records of `bs` contributing to key `k`. -/
def occsOf (k : K) (bs : List β) : List β :=
  bs.filter (fun b => decide (keyf b = some k))

theorem alLookup_upsert_self (k : K) (u : V → V) (s : V) (m : List (K × V)) :
    alLookup k (alUpsert k u s m)
      = some (match alLookup k m with | some v => u v | none => s) := by
  induction m with
  | nil => simp [alUpsert, alLookup]
  | cons p m ih =>
    obtain ⟨k', v⟩ := p
    by_cases h : k' = k
    · simp [alUpsert, alLookup, h]
    · simp [alUpsert, alLookup, h, ih]

theorem alLookup_upsert_ne {k k' : K} (hne : k' ≠ k) (u : V → V) (s : V)
    (m : List (K × V)) : alLookup k (alUpsert k' u s m) = alLookup k m := by
  induction m with
  | nil => simp [alUpsert, alLookup, hne]
  | cons p m ih =>
    obtain ⟨k'', v⟩ := p
    by_cases h : k'' = k'
    · subst h
      simp [alUpsert, alLookup, hne]
    · have hkne : ¬ (k = k') := fun hk => hne hk.symm
      by_cases h2 : k'' = k <;> simp [alUpsert, alLookup, h, h2, ih, hkne]

/-- Effect of one `insStep` on a lookup. -/
theorem alLookup_insStep (k : K) (m : List (K × V)) (b : β) :
    alLookup k (insStep keyf seed upd m b)
      = if keyf b = some k then
          some (match alLookup k m with | some v => upd v b | none => seed b)
        else alLookup k m := by
  unfold insStep
  cases hb : keyf b with
  | none => simp [hb]
  | some k' =>
    by_cases hk : k' = k
    · subst hk
      simp [alLookup_upsert_self]
    · have : ¬ (some k' = some k) := by simpa using hk
      simp [this, alLookup_upsert_ne hk]

/-- Master per-key description of a merge loop: after folding the records
`bs` into the map `m`, the entry at `k` is the seed of the first `k`-record
updated by all later ones (or the updated pre-existing entry). -/
theorem alLookup_foldl_insStep (bs : List β) (m : List (K × V)) (k : K) :
    alLookup k (bs.foldl (insStep keyf seed upd) m)
      = match alLookup k m with
        | some v => some ((occsOf keyf k bs).foldl upd v)
        | none =>
          match occsOf keyf k bs with
          | [] => none
          | b :: rest => some (rest.foldl upd (seed b)) := by
  induction bs generalizing m with
  | nil =>
    cases h : alLookup k m <;> simp [occsOf, h]
  | cons b bs ih =>
    rw [List.foldl_cons, ih]
    by_cases hb : keyf b = some k
    · have hocc : occsOf keyf k (b :: bs) = b :: occsOf keyf k bs := by
        simp [occsOf, List.filter_cons, hb]
      rw [hocc, alLookup_insStep]
      rw [if_pos hb]
      cases h : alLookup k m <;> simp
    · have hocc : occsOf keyf k (b :: bs) = occsOf keyf k bs := by
        simp [occsOf, List.filter_cons, hb]
      rw [hocc, alLookup_insStep, if_neg hb]

theorem alKeys_upsert (k : K) (u : V → V) (s : V) (m : List (K × V)) :
    alKeys (alUpsert k u s m)
      = if (alLookup k m).isSome then alKeys m else alKeys m ++ [k] := by
  induction m with
  | nil => simp [alUpsert, alLookup, alKeys]
  | cons p m ih =>
    obtain ⟨k', v⟩ := p
    by_cases h : k' = k
    · subst h
      simp [alUpsert, alLookup, alKeys]
    · have step : alUpsert k u s ((k', v) :: m) = (k', v) :: alUpsert k u s m := by
        simp [alUpsert, h]
      have lk : alLookup k ((k', v) :: m) = alLookup k m := by
        simp [alLookup, h]
      rw [step, lk]
      show k' :: alKeys (alUpsert k u s m)
        = if (alLookup k m).isSome then alKeys ((k', v) :: m)
          else alKeys ((k', v) :: m) ++ [k]
      rw [ih]
      by_cases h2 : (alLookup k m).isSome
      · simp [h2, alKeys]
      · simp [h2, alKeys]

theorem alLookup_isSome_iff_mem (k : K) (m : List (K × V)) :
    (alLookup k m).isSome = true ↔ k ∈ alKeys m := by
  induction m with
  | nil => simp [alLookup, alKeys]
  | cons p m ih =>
    obtain ⟨k', v⟩ := p
    by_cases h : k' = k
    · subst h
      simp [alLookup, alKeys]
    · have lk : alLookup k ((k', v) :: m) = alLookup k m := by
        simp [alLookup, h]
      rw [lk, ih]
      show k ∈ alKeys m ↔ k ∈ k' :: alKeys m
      constructor
      · exact fun hm => List.mem_cons_of_mem _ hm
      · intro hm
        rcases List.mem_cons.mp hm with h' | hm
        · exact absurd h'.symm h
        · exact hm

/-- The keys, in first-encounter order, that folding `bs` adds to a map
whose key set is `seen`. -/
def newKeysOf (seen : List K) : List β → List K
  | [] => []
  | b :: bs =>
    match keyf b with
    | none => newKeysOf seen bs
    | some k => if k ∈ seen then newKeysOf seen bs else k :: newKeysOf (k :: seen) bs

theorem newKeysOf_congr {seen seen' : List K} (bs : List β)
    (h : ∀ x, x ∈ seen ↔ x ∈ seen') :
    newKeysOf keyf seen bs = newKeysOf keyf seen' bs := by
  induction bs generalizing seen seen' with
  | nil => simp [newKeysOf]
  | cons b bs ih =>
    cases hb : keyf b with
    | none => simp only [newKeysOf, hb]; exact ih h
    | some k =>
      simp only [newKeysOf, hb]
      by_cases hk : k ∈ seen
      · rw [if_pos hk, if_pos ((h k).mp hk), ih h]
      · rw [if_neg hk, if_neg (fun hk' => hk ((h k).mpr hk'))]
        have : ∀ x, x ∈ k :: seen ↔ x ∈ k :: seen' := by
          intro x
          simp [h x]
        rw [ih this]

/-- Keys after a merge loop: the old keys followed by the genuinely new
ones in order of first encounter. -/
theorem alKeys_foldl_insStep (bs : List β) (m : List (K × V)) :
    alKeys (bs.foldl (insStep keyf seed upd) m)
      = alKeys m ++ newKeysOf keyf (alKeys m) bs := by
  induction bs generalizing m with
  | nil => simp [newKeysOf]
  | cons b bs ih =>
    rw [List.foldl_cons, ih]
    unfold insStep
    cases hb : keyf b with
    | none => simp [newKeysOf, hb]
    | some k =>
      rw [alKeys_upsert]
      by_cases hk : k ∈ alKeys m
      · rw [if_pos ((alLookup_isSome_iff_mem k m).mpr hk)]
        simp only [newKeysOf, hb, if_pos hk]
      · rw [if_neg (fun hs => hk ((alLookup_isSome_iff_mem k m).mp hs))]
        simp only [newKeysOf, hb, if_neg hk]
        rw [newKeysOf_congr keyf bs
              (show ∀ x, x ∈ alKeys m ++ [k] ↔ x ∈ k :: alKeys m by
                intro x
                simp [or_comm])]
        simp

/-- No-duplicate keys is preserved by a merge loop. -/
theorem alKeys_nodup_foldl_insStep (bs : List β) (m : List (K × V))
    (hm : (alKeys m).Nodup) :
    (alKeys (bs.foldl (insStep keyf seed upd) m)).Nodup := by
  induction bs generalizing m with
  | nil => exact hm
  | cons b bs ih =>
    rw [List.foldl_cons]
    refine ih _ ?_
    unfold insStep
    cases hb : keyf b with
    | none => exact hm
    | some k =>
      rw [alKeys_upsert]
      by_cases hk : (alLookup k m).isSome
      · rw [if_pos hk]
        exact hm
      · rw [if_neg hk]
        have hknot : k ∉ alKeys m := fun hmem =>
          hk ((alLookup_isSome_iff_mem k m).mpr hmem)
        simpa [List.nodup_append] using ⟨hm, hknot⟩

end AssocList

/-! ### `clean_html` (comment_analyzer.py lines 37-41)

```python
def clean_html(html_text: str) -> str:
    clean = re.sub(r'<[^>]+>', ' ', html_text)
    clean = re.sub(r'\s+', ' ', clean)
    return clean.strip()
```

`stripTags` models the first substitution: scanning left to right, a match
starts at a `<`, needs at least one non-`>` character, and ends at the
first following `>`; each match is replaced by a single space and scanning
resumes after it.  `collapseWs` models the second substitution and
`pyStrip` models `str.strip()`. -/

/-- Python `\s` (ASCII range, as produced by the Guardian HTML bodies). -/
def isWs (c : Char) : Bool :=
  c == ' ' || c == '\t' || c == '\n' || c == '\r' || c == Char.ofNat 11 || c == Char.ofNat 12

/-- Consume characters up to and including the first `>`; `none` if there
is no `>`. -/
def skipToGt : List Char → Option (List Char)
  | [] => none
  | c :: rest => if c = '>' then some rest else skipToGt rest

/-- Attempt to match `[^>]+>` at the current position: at least one
non-`>` character, then the first `>`; returns the remainder after the
match. -/
def findTag : List Char → Option (List Char)
  | [] => none
  | c :: rest => if c = '>' then none else skipToGt rest

theorem skipToGt_length {l l' : List Char} (h : skipToGt l = some l') :
    l'.length < l.length := by
  induction l generalizing l' with
  | nil => simp [skipToGt] at h
  | cons c rest ih =>
    by_cases hc : c = '>'
    · simp [skipToGt, hc] at h
      subst h
      simp
    · simp only [skipToGt, if_neg hc] at h
      exact Nat.lt_trans (ih h) (by simp)

theorem findTag_length {l l' : List Char} (h : findTag l = some l') :
    l'.length < l.length := by
  cases l with
  | nil => simp [findTag] at h
  | cons c rest =>
    by_cases hc : c = '>'
    · simp [findTag, hc] at h
    · simp only [findTag, if_neg hc] at h
      exact Nat.lt_trans (skipToGt_length h) (by simp)

/-- Model of `re.sub(r'<[^>]+>', ' ', ·)`. -/
def stripTags : List Char → List Char
  | [] => []
  | c :: rest =>
    if c = '<' then
      match h : findTag rest with
      | some rest' => ' ' :: stripTags rest'
      | none => '<' :: stripTags rest
    else c :: stripTags rest
termination_by l => l.length
decreasing_by
  · exact Nat.lt_trans (findTag_length h) (by simp)
  · simp
  · simp

/-- Model of `re.sub(r'\s+', ' ', ·)`. -/
def collapseWs : List Char → List Char
  | [] => []
  | c :: rest =>
    if isWs c then ' ' :: collapseWs (rest.dropWhile isWs)
    else c :: collapseWs rest
termination_by l => l.length
decreasing_by
  · exact Nat.lt_succ_of_le (List.dropWhile_sublist isWs).length_le
  · simp

/-- Remove trailing whitespace (the right half of `str.strip()`). -/
def dropTrailingWs (l : List Char) : List Char := (l.reverse.dropWhile isWs).reverse

/-- Model of `str.strip()`. -/
def pyStrip (l : List Char) : List Char := dropTrailingWs (l.dropWhile isWs)

/-- `clean_html` (comment_analyzer.py line 37): strip tags, collapse
whitespace runs, strip ends. -/
def clean_html (s : String) : String := ⟨pyStrip (collapseWs (stripTags s.data))⟩

/-- No substring matches `<[^>]+>`: after every `<`, either nothing
follows, or `>` follows immediately, or no `>` occurs at all. -/
def TagFree (l : List Char) : Prop :=
  ∀ u v, l = u ++ '<' :: v → v = [] ∨ (∃ w, v = '>' :: w) ∨ '>' ∉ v

theorem TagFree_nil : TagFree [] := by
  intro u v h
  simp at h

theorem TagFree.tail {c : Char} {l : List Char} (h : TagFree (c :: l)) :
    TagFree l := by
  intro u v hv
  exact h (c :: u) v (by simp [hv])

theorem TagFree.shape {l : List Char} (h : TagFree ('<' :: l)) :
    l = [] ∨ (∃ w, l = '>' :: w) ∨ '>' ∉ l := h [] l rfl

theorem TagFree.cons {c : Char} {l : List Char}
    (h1 : c = '<' → (l = [] ∨ (∃ w, l = '>' :: w) ∨ '>' ∉ l))
    (h2 : TagFree l) : TagFree (c :: l) := by
  intro u v hv
  cases u with
  | nil =>
    rw [List.nil_append] at hv
    obtain ⟨hc, hl⟩ := List.cons.inj hv
    exact hl ▸ h1 hc
  | cons d u' =>
    rw [List.cons_append] at hv
    obtain ⟨_, hl⟩ := List.cons.inj hv
    exact h2 u' v hl

theorem TagFree_append_right {u l : List Char} (h : TagFree (u ++ l)) :
    TagFree l := by
  intro u' v hv
  exact h (u ++ u') v (by rw [hv, List.append_assoc])

theorem TagFree_suffix {l l' : List Char} (h : TagFree l) (hs : l' <:+ l) :
    TagFree l' := by
  obtain ⟨u, hu⟩ := hs
  exact TagFree_append_right (hu ▸ h)

theorem TagFree_append_left {l u : List Char} (h : TagFree (l ++ u)) :
    TagFree l := by
  intro u' v hv
  have hdecomp : l ++ u = u' ++ '<' :: (v ++ u) := by
    rw [hv, List.append_assoc, List.cons_append]
  rcases h u' (v ++ u) hdecomp with h0 | ⟨w, hw⟩ | hnm
  · left
    exact (List.append_eq_nil.mp h0).1
  · cases v with
    | nil => left; rfl
    | cons a v' =>
      right; left
      rw [List.cons_append] at hw
      obtain ⟨ha, _⟩ := List.cons.inj hw
      exact ⟨v', by rw [ha]⟩
  · right; right
    exact fun hm => hnm (List.mem_append.mpr (Or.inl hm))

theorem TagFree_pre {l l' : List Char} (h : TagFree l) (hs : l' <+: l) :
    TagFree l' := by
  obtain ⟨u, hu⟩ := hs
  exact TagFree_append_left (hu ▸ h)

theorem skipToGt_none_not_mem {l : List Char} (h : skipToGt l = none) :
    '>' ∉ l := by
  induction l with
  | nil => simp
  | cons c rest ih =>
    by_cases hc : c = '>'
    · simp [skipToGt, hc] at h
    · simp only [skipToGt, if_neg hc] at h
      simp [hc, ih h]
      exact fun hcc => absurd hcc.symm hc

theorem skipToGt_eq_none {l : List Char} (h : '>' ∉ l) : skipToGt l = none := by
  induction l with
  | nil => rfl
  | cons c rest ih =>
    rw [List.mem_cons, not_or] at h
    have hc : ¬ (c = '>') := fun hcc => h.1 hcc.symm
    simp only [skipToGt, if_neg hc]
    exact ih h.2

theorem findTag_none_shape {l : List Char} (h : findTag l = none) :
    l = [] ∨ (∃ w, l = '>' :: w) ∨ '>' ∉ l := by
  cases l with
  | nil => left; rfl
  | cons c rest =>
    by_cases hc : c = '>'
    · right; left
      exact ⟨rest, by rw [hc]⟩
    · right; right
      simp only [findTag, if_neg hc] at h
      have := skipToGt_none_not_mem h
      simp [this]
      exact fun hcc => absurd hcc.symm hc

theorem findTag_eq_none_of_shape {l : List Char}
    (h : l = [] ∨ (∃ w, l = '>' :: w) ∨ '>' ∉ l) : findTag l = none := by
  rcases h with rfl | ⟨w, rfl⟩ | hnm
  · rfl
  · simp [findTag]
  · cases l with
    | nil => rfl
    | cons c rest =>
      rw [List.mem_cons, not_or] at hnm
      have hc : ¬ (c = '>') := fun hcc => hnm.1 hcc.symm
      simp only [findTag, if_neg hc]
      exact skipToGt_eq_none hnm.2

theorem stripTags_nil : stripTags [] = [] := by rw [stripTags]

theorem stripTags_cons_lt_some {rest rest' : List Char}
    (h : findTag rest = some rest') :
    stripTags ('<' :: rest) = ' ' :: stripTags rest' := by
  rw [stripTags, if_pos rfl]
  split
  · next x heq =>
    rw [heq] at h
    cases h
    rfl
  · next heq =>
    rw [heq] at h
    cases h

theorem stripTags_cons_lt_none {rest : List Char} (h : findTag rest = none) :
    stripTags ('<' :: rest) = '<' :: stripTags rest := by
  rw [stripTags, if_pos rfl]
  split
  · next x heq =>
    rw [heq] at h
    cases h
  · next heq => rfl

theorem stripTags_cons_ne {c : Char} (rest : List Char) (h : ¬ (c = '<')) :
    stripTags (c :: rest) = c :: stripTags rest := by
  rw [stripTags, if_neg h]

theorem skipToGt_subset {l l' : List Char} (h : skipToGt l = some l') :
    l' ⊆ l := by
  induction l generalizing l' with
  | nil => simp [skipToGt] at h
  | cons c rest ih =>
    by_cases hc : c = '>'
    · simp [skipToGt, hc] at h
      subst h
      exact List.subset_cons_self c _
    · simp only [skipToGt, if_neg hc] at h
      exact (ih h).trans (List.subset_cons_self c rest)

theorem findTag_subset {l l' : List Char} (h : findTag l = some l') :
    l' ⊆ l := by
  cases l with
  | nil => simp [findTag] at h
  | cons c rest =>
    by_cases hc : c = '>'
    · simp [findTag, hc] at h
    · simp only [findTag, if_neg hc] at h
      exact (skipToGt_subset h).trans (List.subset_cons_self c rest)

theorem mem_stripTags {a : Char} {l : List Char} (h : a ∈ stripTags l) :
    a ∈ l ∨ a = ' ' := by
  induction l using stripTags.induct with
  | case1 =>
    rw [stripTags_nil] at h
    simp at h
  | case2 rest rest' hft ih =>
    rw [stripTags_cons_lt_some hft] at h
    rcases List.mem_cons.mp h with rfl | h2
    · right; rfl
    · rcases ih h2 with h3 | h3
      · left; exact List.mem_cons_of_mem _ (findTag_subset hft h3)
      · right; exact h3
  | case3 rest hft ih =>
    rw [stripTags_cons_lt_none hft] at h
    rcases List.mem_cons.mp h with rfl | h2
    · left; simp
    · rcases ih h2 with h3 | h3
      · left; exact List.mem_cons_of_mem _ h3
      · right; exact h3
  | case4 c rest hc ih =>
    rw [stripTags_cons_ne rest hc] at h
    rcases List.mem_cons.mp h with rfl | h2
    · left; simp
    · rcases ih h2 with h3 | h3
      · left; exact List.mem_cons_of_mem _ h3
      · right; exact h3

theorem gt_not_mem_stripTags {l : List Char} (h : '>' ∉ l) :
    '>' ∉ stripTags l := by
  intro hm
  rcases mem_stripTags hm with h1 | h1
  · exact h h1
  · exact absurd h1 (by decide)

theorem tagFree_stripTags (l : List Char) : TagFree (stripTags l) := by
  induction l using stripTags.induct with
  | case1 =>
    rw [stripTags_nil]
    exact TagFree_nil
  | case2 rest rest' hft ih =>
    rw [stripTags_cons_lt_some hft]
    exact TagFree.cons (fun hc => absurd hc (by decide)) ih
  | case3 rest hft ih =>
    rw [stripTags_cons_lt_none hft]
    refine TagFree.cons (fun _ => ?_) ih
    rcases findTag_none_shape hft with rfl | ⟨w, rfl⟩ | hnm
    · left
      rw [stripTags_nil]
    · right; left
      exact ⟨stripTags w, stripTags_cons_ne w (by decide)⟩
    · right; right
      exact gt_not_mem_stripTags hnm
  | case4 c rest hc ih =>
    rw [stripTags_cons_ne rest hc]
    exact TagFree.cons (fun h => absurd h hc) ih

theorem stripTags_of_tagFree {l : List Char} (h : TagFree l) :
    stripTags l = l := by
  induction l using stripTags.induct with
  | case1 => exact stripTags_nil
  | case2 rest rest' hft ih =>
    exact absurd hft (by rw [findTag_eq_none_of_shape (TagFree.shape h)]; simp)
  | case3 rest hft ih =>
    rw [stripTags_cons_lt_none hft, ih (TagFree.tail h)]
  | case4 c rest hc ih =>
    rw [stripTags_cons_ne rest hc, ih (TagFree.tail h)]

theorem collapseWs_nil : collapseWs [] = [] := by rw [collapseWs]

theorem collapseWs_cons_ws {c : Char} (rest : List Char) (h : isWs c = true) :
    collapseWs (c :: rest) = ' ' :: collapseWs (rest.dropWhile isWs) := by
  rw [collapseWs, if_pos h]

theorem collapseWs_cons_not_ws {c : Char} (rest : List Char)
    (h : ¬ (isWs c = true)) :
    collapseWs (c :: rest) = c :: collapseWs rest := by
  rw [collapseWs, if_neg h]

theorem mem_collapseWs {a : Char} {l : List Char} (h : a ∈ collapseWs l) :
    a ∈ l ∨ a = ' ' := by
  induction l using collapseWs.induct with
  | case1 =>
    rw [collapseWs_nil] at h
    simp at h
  | case2 c rest hws ih =>
    rw [collapseWs_cons_ws rest hws] at h
    rcases List.mem_cons.mp h with rfl | h2
    · right; rfl
    · rcases ih h2 with h3 | h3
      · left
        exact List.mem_cons_of_mem _ ((List.dropWhile_sublist isWs).subset h3)
      · right; exact h3
  | case3 c rest hws ih =>
    rw [collapseWs_cons_not_ws rest hws] at h
    rcases List.mem_cons.mp h with rfl | h2
    · left; simp
    · rcases ih h2 with h3 | h3
      · left; exact List.mem_cons_of_mem _ h3
      · right; exact h3

theorem tagFree_collapseWs {l : List Char} (h : TagFree l) :
    TagFree (collapseWs l) := by
  induction l using collapseWs.induct with
  | case1 =>
    rw [collapseWs_nil]
    exact TagFree_nil
  | case2 c rest hws ih =>
    rw [collapseWs_cons_ws rest hws]
    refine TagFree.cons (fun hc => absurd hc (by decide)) ?_
    exact ih (TagFree_suffix (TagFree.tail h) (List.dropWhile_suffix isWs))
  | case3 c rest hws ih =>
    rw [collapseWs_cons_not_ws rest hws]
    refine TagFree.cons (fun hc => ?_) (ih (TagFree.tail h))
    subst hc
    rcases TagFree.shape h with rfl | ⟨w, rfl⟩ | hnm
    · left
      rw [collapseWs_nil]
    · right; left
      exact ⟨collapseWs w, collapseWs_cons_not_ws w (by decide)⟩
    · right; right
      intro hm
      rcases mem_collapseWs hm with h1 | h1
      · exact hnm h1
      · exact absurd h1 (by decide)

/-- Output shape of `re.sub(r'\s+', ' ', ·)`: no two adjacent whitespace
characters, and every whitespace character is a plain space. -/
def Collapsed (l : List Char) : Prop :=
  l.Chain' (fun a b => ¬ (isWs a = true ∧ isWs b = true))
    ∧ ∀ c ∈ l, isWs c = true → c = ' '

theorem dropWhile_head_not {p : Char → Bool} {l : List Char} {c : Char}
    {r : List Char} (h : l.dropWhile p = c :: r) : p c = false := by
  have := List.head?_dropWhile_not p l
  rw [h] at this
  simpa using this

theorem head_not_ws_collapseWs_dropWhile (r : List Char) :
    ∀ b ∈ (collapseWs (r.dropWhile isWs)).head?, isWs b = false := by
  intro b hb
  cases hdw : r.dropWhile isWs with
  | nil =>
    rw [hdw, collapseWs_nil] at hb
    simp at hb
  | cons c' r' =>
    have hc' : isWs c' = false := dropWhile_head_not hdw
    rw [hdw, collapseWs_cons_not_ws r' (by simp [hc'])] at hb
    simp at hb
    exact hb ▸ hc'

theorem collapsed_collapseWs (l : List Char) : Collapsed (collapseWs l) := by
  induction l using collapseWs.induct with
  | case1 =>
    rw [collapseWs_nil]
    exact ⟨List.chain'_nil, by simp⟩
  | case2 c rest hws ih =>
    rw [collapseWs_cons_ws rest hws]
    constructor
    · refine List.chain'_cons'.mpr ⟨?_, ih.1⟩
      intro b hb
      have := head_not_ws_collapseWs_dropWhile rest b hb
      simp [this]
    · intro d hd hwd
      rcases List.mem_cons.mp hd with rfl | hd2
      · rfl
      · exact ih.2 d hd2 hwd
  | case3 c rest hws ih =>
    rw [collapseWs_cons_not_ws rest hws]
    constructor
    · refine List.chain'_cons'.mpr ⟨?_, ih.1⟩
      intro b hb
      simp [hws]
    · intro d hd hwd
      rcases List.mem_cons.mp hd with rfl | hd2
      · exact absurd hwd hws
      · exact ih.2 d hd2 hwd

theorem collapseWs_of_collapsed {l : List Char} (h : Collapsed l) :
    collapseWs l = l := by
  induction l with
  | nil => exact collapseWs_nil
  | cons c rest ih =>
    have htail : Collapsed rest :=
      ⟨(List.chain'_cons'.mp h.1).2, fun d hd => h.2 d (List.mem_cons_of_mem c hd)⟩
    by_cases hws : isWs c = true
    · have hceq : c = ' ' := h.2 c (List.mem_cons_self c rest) hws
      have hdw : rest.dropWhile isWs = rest := by
        cases rest with
        | nil => rfl
        | cons d r =>
          have hrel := (List.chain'_cons'.mp h.1).1 d (by simp)
          have hd : isWs d = false := by
            rcases Bool.eq_false_or_eq_true (isWs d) with hd | hd
            · exact absurd ⟨hws, hd⟩ hrel
            · exact hd
          simp [List.dropWhile_cons, hd]
      rw [collapseWs_cons_ws rest hws, hdw, ih htail, hceq]
    · rw [collapseWs_cons_not_ws rest hws, ih htail]

theorem collapsed_suffix {l l' : List Char} (h : Collapsed l) (hs : l' <:+ l) :
    Collapsed l' :=
  ⟨ h.1.suffix hs, fun c hc hw => h.2 c (hs.subset hc) hw⟩

theorem collapsed_pre {l l' : List Char} (h : Collapsed l) (hs : l' <+: l) :
    Collapsed l' :=
  ⟨ List.Chain'.prefix h.1 hs, fun c hc hw => h.2 c (hs.subset hc) hw⟩

theorem dropWhile_of_head_not {p : Char → Bool} {l : List Char}
    (h : ∀ b ∈ l.head?, p b = false) : l.dropWhile p = l := by
  cases l with
  | nil => rfl
  | cons c rest =>
    have hc := h c (by simp)
    simp [List.dropWhile_cons, hc]

theorem dropTrailingWs_pre (l : List Char) : dropTrailingWs l <+: l := by
  have h1 : (l.reverse.dropWhile isWs).reverse <+: l.reverse.reverse :=
    List.reverse_prefix.mpr (List.dropWhile_suffix isWs)
  simpa using h1

theorem head?_of_pre {l l' : List Char} (h : l' <+: l) (hne : l' ≠ []) :
    l'.head? = l.head? := by
  obtain ⟨u, rfl⟩ := h
  cases l' with
  | nil => exact absurd rfl hne
  | cons c r => rfl

theorem pyStrip_head_not (l : List Char) :
    ∀ b ∈ (pyStrip l).head?, isWs b = false := by
  intro b hb
  unfold pyStrip at hb
  by_cases hne : dropTrailingWs (l.dropWhile isWs) = []
  · rw [hne] at hb
    simp at hb
  · rw [head?_of_pre (dropTrailingWs_pre (l.dropWhile isWs)) hne] at hb
    cases hdw : l.dropWhile isWs with
    | nil =>
      rw [hdw] at hb
      simp at hb
    | cons c r =>
      rw [hdw] at hb
      simp at hb
      exact hb ▸ dropWhile_head_not hdw

theorem dropWhile_idem_ws (l : List Char) :
    (l.dropWhile isWs).dropWhile isWs = l.dropWhile isWs := by
  cases h : l.dropWhile isWs with
  | nil => rfl
  | cons c r =>
    have hc : isWs c = false := dropWhile_head_not h
    simp [List.dropWhile_cons, hc]

theorem dropTrailingWs_idem (l : List Char) :
    dropTrailingWs (dropTrailingWs l) = dropTrailingWs l := by
  unfold dropTrailingWs
  rw [List.reverse_reverse, dropWhile_idem_ws]

theorem pyStrip_idem (l : List Char) : pyStrip (pyStrip l) = pyStrip l := by
  have h1 : (pyStrip l).dropWhile isWs = pyStrip l :=
    dropWhile_of_head_not (pyStrip_head_not l)
  show dropTrailingWs ((pyStrip l).dropWhile isWs) = pyStrip l
  rw [h1]
  show dropTrailingWs (dropTrailingWs (l.dropWhile isWs)) = pyStrip l
  rw [dropTrailingWs_idem]
  rfl

/-! ### Data model of `merge_commercial_results` (comment_analyzer.py 248-312)

Incoming records come from LLM JSON, so every field may be absent:
`Option` models an absent key; for the fields read with `.get("f", "")`
followed by an emptiness test, an absent value and `""` behave
identically, so `name`/`item`/`target`/`type` are plain `String` with `""`
standing for absent.  The output entry types (`BrandOut`, …) mirror the
dicts the function builds, where every field is present. -/

/-- An incoming brand record (`result["brands"][i]`). -/
structure BrandIn where
  name : String
  category : Option String
  sentiment : Option String
  mentions : Option Int
deriving DecidableEq

/-- A merged brand entry (lines 275-280). -/
structure BrandOut where
  name : String
  category : String
  sentiment : String
  mentions : Int
deriving DecidableEq

/-- An incoming recommendation record. -/
structure RecIn where
  item : String
  category : Option String
  quote : Option String
  endorsements : Option Int
deriving DecidableEq

/-- A merged recommendation entry (lines 290-295). -/
structure RecOut where
  item : String
  category : String
  quote : String
  endorsements : Int
deriving DecidableEq

/-- An incoming opportunity record; stored unchanged on first occurrence
(line 301), so no separate output type is needed. -/
structure OppIn where
  target : String
  type : String
  rationale : String
deriving DecidableEq

/-- One per-batch analysis result.  `err` covers a falsy value and a dict
carrying a top-level `"error"` key — both are skipped by the merge loop
(lines 260-262). -/
inductive AnalysisResult where
  | ok (brands : List BrandIn) (recommendations : List RecIn)
      (opportunities : List OppIn)
  | err
deriving DecidableEq

def AnalysisResult.isErr : AnalysisResult → Bool
  | .ok _ _ _ => false
  | .err => true

/-- The shape of the value returned by `merge_commercial_results`. -/
structure MergedResult where
  brands : List BrandOut
  recommendations : List RecOut
  opportunities : List OppIn
deriving DecidableEq

/-- `name = brand.get("name", "").lower()`; `if not name: continue`
(lines 266-268). -/
def brandKeyf (b : BrandIn) : Option String :=
  if pyLower b.name = "" then none else some (pyLower b.name)

/-- First occurrence of a brand key seeds the entry (lines 275-280). -/
def seedBrand (b : BrandIn) : BrandOut :=
  ⟨b.name, b.category.getD "", b.sentiment.getD "neutral", b.mentions.getD 1⟩

/-- Subsequent occurrence: add mentions; overwrite sentiment only when the
incoming one is polarized (lines 270-273). -/
def updBrand (v : BrandOut) (b : BrandIn) : BrandOut :=
  { v with
    mentions := v.mentions + b.mentions.getD 1,
    sentiment :=
      match b.sentiment with
      | some s => if s = "positive" ∨ s = "negative" then s else v.sentiment
      | none => v.sentiment }

/-- `item = rec.get("item", "").lower()`; `if not item: continue`
(lines 284-286). -/
def recKeyf (r : RecIn) : Option String :=
  if pyLower r.item = "" then none else some (pyLower r.item)

/-- First occurrence of an item seeds the entry (lines 290-295). -/
def seedRec (r : RecIn) : RecOut :=
  ⟨r.item, r.category.getD "", r.quote.getD "", r.endorsements.getD 1⟩

/-- Subsequent occurrence: add endorsements (line 288). -/
def updRec (v : RecOut) (r : RecIn) : RecOut :=
  { v with endorsements := v.endorsements + r.endorsements.getD 1 }

/-- `key = (opp.get("target", "").lower(), opp.get("type", "").lower())`;
the record is kept only when `key[0]` is truthy (lines 299-300). -/
def oppKeyf (o : OppIn) : Option (String × String) :=
  if pyLower o.target = "" then none else some (pyLower o.target, pyLower o.type)

/-- First occurrence wins entirely (lines 300-301): the update leaves the
stored record unchanged. -/
def updOpp (v : OppIn) (_ : OppIn) : OppIn := v

/-- The three dicts built by the merge loop. -/
structure MergeMaps where
  brands : List (String × BrandOut)
  recommendations : List (String × RecOut)
  opportunities : List ((String × String) × OppIn)

/-- Processing one result of the input list (lines 260-301): error-shaped
results are skipped; otherwise each of the three record lists is folded
into its dict. -/
def mergeStep (acc : MergeMaps) : AnalysisResult → MergeMaps
  | .err => acc
  | .ok bs rs os =>
    { brands := bs.foldl (insStep brandKeyf seedBrand updBrand) acc.brands,
      recommendations := rs.foldl (insStep recKeyf seedRec updRec) acc.recommendations,
      opportunities := os.foldl (insStep oppKeyf id updOpp) acc.opportunities }

/-- `merge_commercial_results` (comment_analyzer.py 248-312): fold all
results into the three dicts, then shape the output (lines 304-312):
brands sorted by mentions descending; recommendations sorted by
endorsements descending, top 8; opportunities in insertion order, first 5. -/
def merge_commercial_results (results : List AnalysisResult) : MergedResult :=
  { brands := sortByDesc (fun x : BrandOut => x.mentions)
      ((results.foldl mergeStep ⟨[], [], []⟩).brands.map Prod.snd),
    recommendations :=
      (sortByDesc (fun x : RecOut => x.endorsements)
        ((results.foldl mergeStep ⟨[], [], []⟩).recommendations.map Prod.snd)).take 8,
    opportunities :=
      ((results.foldl mergeStep ⟨[], [], []⟩).opportunities.map Prod.snd).take 5 }

/-- All brand records of the non-error results, in processing order. -/
def allBrands (results : List AnalysisResult) : List BrandIn :=
  (results.map fun r => match r with | .ok bs _ _ => bs | .err => []).flatten

def allRecs (results : List AnalysisResult) : List RecIn :=
  (results.map fun r => match r with | .ok _ rs _ => rs | .err => []).flatten

def allOpps (results : List AnalysisResult) : List OppIn :=
  (results.map fun r => match r with | .ok _ _ os => os | .err => []).flatten

/-- The brands dict after the merge loop. -/
def brandsAL (results : List AnalysisResult) : List (String × BrandOut) :=
  (allBrands results).foldl (insStep brandKeyf seedBrand updBrand) []

def recsAL (results : List AnalysisResult) : List (String × RecOut) :=
  (allRecs results).foldl (insStep recKeyf seedRec updRec) []

def oppsAL (results : List AnalysisResult) : List ((String × String) × OppIn) :=
  (allOpps results).foldl (insStep oppKeyf id updOpp) []

theorem mergeStep_foldl_brands (results : List AnalysisResult) (acc : MergeMaps) :
    (results.foldl mergeStep acc).brands
      = (allBrands results).foldl (insStep brandKeyf seedBrand updBrand) acc.brands := by
  induction results generalizing acc with
  | nil => simp [allBrands]
  | cons r rs ih =>
    cases r with
    | err => simpa [allBrands, mergeStep] using ih acc
    | ok bs rcs os =>
      rw [List.foldl_cons, ih]
      simp [allBrands, mergeStep, List.foldl_append]

theorem mergeStep_foldl_recs (results : List AnalysisResult) (acc : MergeMaps) :
    (results.foldl mergeStep acc).recommendations
      = (allRecs results).foldl (insStep recKeyf seedRec updRec) acc.recommendations := by
  induction results generalizing acc with
  | nil => simp [allRecs]
  | cons r rs ih =>
    cases r with
    | err => simpa [allRecs, mergeStep] using ih acc
    | ok bs rcs os =>
      rw [List.foldl_cons, ih]
      simp [allRecs, mergeStep, List.foldl_append]

theorem mergeStep_foldl_opps (results : List AnalysisResult) (acc : MergeMaps) :
    (results.foldl mergeStep acc).opportunities
      = (allOpps results).foldl (insStep oppKeyf id updOpp) acc.opportunities := by
  induction results generalizing acc with
  | nil => simp [allOpps]
  | cons r rs ih =>
    cases r with
    | err => simpa [allOpps, mergeStep] using ih acc
    | ok bs rcs os =>
      rw [List.foldl_cons, ih]
      simp [allOpps, mergeStep, List.foldl_append]

/-- `merge_commercial_results` through the flattened record lists. -/
theorem merge_commercial_results_eq (results : List AnalysisResult) :
    merge_commercial_results results
      = { brands := sortByDesc (fun x : BrandOut => x.mentions)
            ((brandsAL results).map Prod.snd),
          recommendations := (sortByDesc (fun x : RecOut => x.endorsements)
            ((recsAL results).map Prod.snd)).take 8,
          opportunities := ((oppsAL results).map Prod.snd).take 5 } := by
  unfold merge_commercial_results brandsAL recsAL oppsAL
  rw [mergeStep_foldl_brands, mergeStep_foldl_recs, mergeStep_foldl_opps]

theorem foldl_updBrand_mentions (bs : List BrandIn) (v : BrandOut) :
    (bs.foldl updBrand v).mentions
      = v.mentions + (bs.map (fun b => b.mentions.getD 1)).sum := by
  induction bs generalizing v with
  | nil => simp
  | cons b bs ih =>
    rw [List.foldl_cons, ih]
    simp [updBrand, add_assoc]

theorem foldl_updBrand_name (bs : List BrandIn) (v : BrandOut) :
    (bs.foldl updBrand v).name = v.name := by
  induction bs generalizing v with
  | nil => rfl
  | cons b bs ih =>
    rw [List.foldl_cons, ih]
    rfl

theorem foldl_updBrand_category (bs : List BrandIn) (v : BrandOut) :
    (bs.foldl updBrand v).category = v.category := by
  induction bs generalizing v with
  | nil => rfl
  | cons b bs ih =>
    rw [List.foldl_cons, ih]
    rfl

/-- The polarized sentiment carried by an incoming brand record, if any. -/
def polarizedOf (b : BrandIn) : Option String :=
  match b.sentiment with
  | some s => if s = "positive" ∨ s = "negative" then some s else none
  | none => none

theorem updBrand_sentiment_of_pol {b : BrandIn} {s : String}
    (h : polarizedOf b = some s) (v : BrandOut) :
    (updBrand v b).sentiment = s := by
  cases hb : b.sentiment with
  | none => simp [polarizedOf, hb] at h
  | some s' =>
    simp only [polarizedOf, hb] at h
    by_cases hc : s' = "positive" ∨ s' = "negative"
    · rw [if_pos hc] at h
      injection h with h
      subst h
      simp [updBrand, hb, hc]
    · rw [if_neg hc] at h
      cases h

theorem updBrand_sentiment_of_not_pol {b : BrandIn}
    (h : polarizedOf b = none) (v : BrandOut) :
    (updBrand v b).sentiment = v.sentiment := by
  cases hb : b.sentiment with
  | none => simp [updBrand, hb]
  | some s' =>
    simp only [polarizedOf, hb] at h
    by_cases hc : s' = "positive" ∨ s' = "negative"
    · rw [if_pos hc] at h
      cases h
    · simp [updBrand, hb, hc]

theorem foldl_updBrand_sentiment (bs : List BrandIn) (v : BrandOut) :
    (bs.foldl updBrand v).sentiment
      = ((bs.filterMap polarizedOf).getLast?).getD v.sentiment := by
  induction bs generalizing v with
  | nil => simp
  | cons b bs ih =>
    rw [List.foldl_cons, ih]
    cases hb : polarizedOf b with
    | none =>
      rw [List.filterMap_cons_none hb, updBrand_sentiment_of_not_pol hb]
    | some s =>
      rw [List.filterMap_cons_some hb]
      rw [updBrand_sentiment_of_pol hb]
      cases hl : bs.filterMap polarizedOf with
      | nil => simp
      | cons x l =>
        rw [List.getLast?_cons_cons]
        cases hxl : (x :: l).getLast? with
        | none => simp at hxl
        | some y => simp [hxl]

theorem foldl_updRec_endorsements (rs : List RecIn) (v : RecOut) :
    (rs.foldl updRec v).endorsements
      = v.endorsements + (rs.map (fun r => r.endorsements.getD 1)).sum := by
  induction rs generalizing v with
  | nil => simp
  | cons r rs ih =>
    rw [List.foldl_cons, ih]
    simp [updRec, add_assoc]

theorem foldl_updRec_item (rs : List RecIn) (v : RecOut) :
    (rs.foldl updRec v).item = v.item := by
  induction rs generalizing v with
  | nil => rfl
  | cons r rs ih => rw [List.foldl_cons, ih]; rfl

theorem foldl_updRec_category (rs : List RecIn) (v : RecOut) :
    (rs.foldl updRec v).category = v.category := by
  induction rs generalizing v with
  | nil => rfl
  | cons r rs ih => rw [List.foldl_cons, ih]; rfl

theorem foldl_updRec_quote (rs : List RecIn) (v : RecOut) :
    (rs.foldl updRec v).quote = v.quote := by
  induction rs generalizing v with
  | nil => rfl
  | cons r rs ih => rw [List.foldl_cons, ih]; rfl

theorem foldl_updOpp (os : List OppIn) (v : OppIn) : os.foldl updOpp v = v := by
  induction os generalizing v with
  | nil => rfl
  | cons o os ih => rw [List.foldl_cons]; exact ih v

theorem brandLookup_mentions (rs : List AnalysisResult) (k : String) :
    (alLookup k (brandsAL rs)).map BrandOut.mentions
      = match occsOf brandKeyf k (allBrands rs) with
        | [] => none
        | b :: rest => some (b.mentions.getD 1
            + (rest.map (fun x => x.mentions.getD 1)).sum) := by
  rw [brandsAL, alLookup_foldl_insStep]
  simp only [alLookup]
  cases h : occsOf brandKeyf k (allBrands rs) with
  | nil => rfl
  | cons b rest => simp [foldl_updBrand_mentions, seedBrand]

theorem brandLookup_name (rs : List AnalysisResult) (k : String) :
    (alLookup k (brandsAL rs)).map BrandOut.name
      = ((occsOf brandKeyf k (allBrands rs)).head?).map BrandIn.name := by
  rw [brandsAL, alLookup_foldl_insStep]
  simp only [alLookup]
  cases h : occsOf brandKeyf k (allBrands rs) with
  | nil => rfl
  | cons b rest => simp [foldl_updBrand_name, seedBrand]

theorem brandLookup_category (rs : List AnalysisResult) (k : String) :
    (alLookup k (brandsAL rs)).map BrandOut.category
      = ((occsOf brandKeyf k (allBrands rs)).head?).map (fun b => b.category.getD "") := by
  rw [brandsAL, alLookup_foldl_insStep]
  simp only [alLookup]
  cases h : occsOf brandKeyf k (allBrands rs) with
  | nil => rfl
  | cons b rest => simp [foldl_updBrand_category, seedBrand]

theorem brandLookup_sentiment (rs : List AnalysisResult) (k : String) :
    (alLookup k (brandsAL rs)).map BrandOut.sentiment
      = match occsOf brandKeyf k (allBrands rs) with
        | [] => none
        | b :: rest => some (((rest.filterMap polarizedOf).getLast?).getD
            (b.sentiment.getD "neutral")) := by
  rw [brandsAL, alLookup_foldl_insStep]
  simp only [alLookup]
  cases h : occsOf brandKeyf k (allBrands rs) with
  | nil => rfl
  | cons b rest => simp [foldl_updBrand_sentiment, seedBrand]

theorem oppLookup (rs : List AnalysisResult) (k : String × String) :
    alLookup k (oppsAL rs) = (occsOf oppKeyf k (allOpps rs)).head? := by
  rw [oppsAL, alLookup_foldl_insStep]
  simp only [alLookup]
  cases h : occsOf oppKeyf k (allOpps rs) with
  | nil => rfl
  | cons b rest => simp [foldl_updOpp]

theorem allBrands_filter_err (rs : List AnalysisResult) :
    allBrands (rs.filter (fun r => !r.isErr)) = allBrands rs := by
  induction rs with
  | nil => rfl
  | cons r rs ih =>
    cases r with
    | err => simpa [allBrands, List.filter_cons, AnalysisResult.isErr] using ih
    | ok bs rcs os =>
      simp [allBrands, List.filter_cons, AnalysisResult.isErr] at ih ⊢
      exact ih

theorem allRecs_filter_err (rs : List AnalysisResult) :
    allRecs (rs.filter (fun r => !r.isErr)) = allRecs rs := by
  induction rs with
  | nil => rfl
  | cons r rs ih =>
    cases r with
    | err => simpa [allRecs, List.filter_cons, AnalysisResult.isErr] using ih
    | ok bs rcs os =>
      simp [allRecs, List.filter_cons, AnalysisResult.isErr] at ih ⊢
      exact ih

theorem allOpps_filter_err (rs : List AnalysisResult) :
    allOpps (rs.filter (fun r => !r.isErr)) = allOpps rs := by
  induction rs with
  | nil => rfl
  | cons r rs ih =>
    cases r with
    | err => simpa [allOpps, List.filter_cons, AnalysisResult.isErr] using ih
    | ok bs rcs os =>
      simp [allOpps, List.filter_cons, AnalysisResult.isErr] at ih ⊢
      exact ih

/-- Error-shaped results contribute nothing: merging a result list equals
merging its non-error sublist. -/
theorem merge_filter_err (rs : List AnalysisResult) :
    merge_commercial_results rs
      = merge_commercial_results (rs.filter (fun r => !r.isErr)) := by
  rw [merge_commercial_results_eq, merge_commercial_results_eq]
  rw [brandsAL, brandsAL, allBrands_filter_err,
      recsAL, recsAL, allRecs_filter_err,
      oppsAL, oppsAL, allOpps_filter_err]

theorem allBrands_of_all_err {rs : List AnalysisResult}
    (h : ∀ r ∈ rs, r.isErr = true) : allBrands rs = [] := by
  induction rs with
  | nil => rfl
  | cons r rs ih =>
    cases r with
    | err =>
      simpa [allBrands] using ih (fun x hx => h x (List.mem_cons_of_mem _ hx))
    | ok bs rcs os =>
      exact absurd (h _ (List.mem_cons_self _ _)) (by simp [AnalysisResult.isErr])

theorem allRecs_of_all_err {rs : List AnalysisResult}
    (h : ∀ r ∈ rs, r.isErr = true) : allRecs rs = [] := by
  induction rs with
  | nil => rfl
  | cons r rs ih =>
    cases r with
    | err =>
      simpa [allRecs] using ih (fun x hx => h x (List.mem_cons_of_mem _ hx))
    | ok bs rcs os =>
      exact absurd (h _ (List.mem_cons_self _ _)) (by simp [AnalysisResult.isErr])

theorem allOpps_of_all_err {rs : List AnalysisResult}
    (h : ∀ r ∈ rs, r.isErr = true) : allOpps rs = [] := by
  induction rs with
  | nil => rfl
  | cons r rs ih =>
    cases r with
    | err =>
      simpa [allOpps] using ih (fun x hx => h x (List.mem_cons_of_mem _ hx))
    | ok bs rcs os =>
      exact absurd (h _ (List.mem_cons_self _ _)) (by simp [AnalysisResult.isErr])

theorem merge_of_all_err {rs : List AnalysisResult}
    (h : ∀ r ∈ rs, r.isErr = true) :
    merge_commercial_results rs = ⟨[], [], []⟩ := by
  rw [merge_commercial_results_eq]
  rw [brandsAL, allBrands_of_all_err h, recsAL, allRecs_of_all_err h,
      oppsAL, allOpps_of_all_err h]
  rfl

/-! ### Selector and Batcher (comment_analyzer.py 44-61, 335-344)

A comment record: only the fields the selection/batching logic reads.
`numRecommends` is read with `c.get('numRecommends', 0)`, so an absent
count behaves as `0` and is modelled by the plain field. -/

structure Comment where
  body : String
  numRecommends : Nat
deriving DecidableEq

/-- `lst[i:i + B]` chunking (`for i in range(0, len(lst), B)`), written
with a structural fuel argument so that it evaluates; `chunksF B f l` (for
`f ≥ l.length`) and `chunks B l` agree — see `chunksF_fuel_eq`.  For
`B = 0` Python's `range` raises `ValueError`; no claim concerns `B = 0`. -/
def chunksF {α : Type} (B : Nat) : Nat → List α → List (List α)
  | _, [] => []
  | 0, _ :: _ => []
  | f + 1, x :: xs => ((x :: xs).take B) :: chunksF B f ((x :: xs).drop B)

def chunks {α : Type} (B : Nat) (l : List α) : List (List α) := chunksF B l.length l

theorem chunksF_fuel_eq {α : Type} {B : Nat} (hB : 1 ≤ B) :
    ∀ (f₁ f₂ : Nat) (l : List α), l.length ≤ f₁ → l.length ≤ f₂ →
      chunksF B f₁ l = chunksF B f₂ l := by
  intro f₁
  induction f₁ with
  | zero =>
    intro f₂ l h1 h2
    have : l = [] := List.length_eq_zero.mp (Nat.le_zero.mp h1)
    subst this
    cases f₂ <;> rfl
  | succ f ih =>
    intro f₂ l h1 h2
    cases l with
    | nil => cases f₂ <;> rfl
    | cons x xs =>
      cases f₂ with
      | zero => exact absurd h2 (by simp)
      | succ f₂' =>
        show ((x :: xs).take B) :: chunksF B f ((x :: xs).drop B)
          = ((x :: xs).take B) :: chunksF B f₂' ((x :: xs).drop B)
        have hlen : ((x :: xs).drop B).length ≤ xs.length := by
          simp only [List.length_drop, List.length_cons]
          omega
        rw [ih f₂' _ (le_trans hlen (Nat.le_of_succ_le_succ h1))
              (le_trans hlen (Nat.le_of_succ_le_succ h2))]

theorem chunks_nil {α : Type} (B : Nat) : chunks B ([] : List α) = [] := rfl

theorem chunks_cons {α : Type} {B : Nat} (hB : 1 ≤ B) (x : α) (xs : List α) :
    chunks B (x :: xs) = ((x :: xs).take B) :: chunks B ((x :: xs).drop B) := by
  show ((x :: xs).take B) :: chunksF B xs.length ((x :: xs).drop B)
    = ((x :: xs).take B) :: chunksF B ((x :: xs).drop B).length ((x :: xs).drop B)
  have hlen : ((x :: xs).drop B).length ≤ xs.length := by
    simp only [List.length_drop, List.length_cons]
    omega
  rw [chunksF_fuel_eq hB _ _ _ hlen (le_refl _)]

theorem chunks_eq_nil_iff {α : Type} {B : Nat} (hB : 1 ≤ B) (l : List α) :
    chunks B l = [] ↔ l = [] := by
  cases l with
  | nil => simp [chunks_nil]
  | cons x xs => simp [chunks_cons hB]

/-- Strong-induction helper: every list property stable under `chunks`
recursion can be proved by bounding the length. -/
theorem chunks_length {α : Type} {B : Nat} (hB : 1 ≤ B) (l : List α) :
    (chunks B l).length = (l.length + B - 1) / B := by
  suffices h : ∀ (n : Nat) (l : List α), l.length ≤ n →
      (chunks B l).length = (l.length + B - 1) / B from h l.length l (le_refl _)
  intro n
  induction n with
  | zero =>
    intro l hl
    have : l = [] := List.length_eq_zero.mp (Nat.le_zero.mp hl)
    subst this
    rw [chunks_nil]
    simp [Nat.div_eq_of_lt (show B - 1 < B by omega)]
  | succ n ih =>
    intro l hl
    cases l with
    | nil =>
      rw [chunks_nil]
      have h0 : (B - 1) / B = 0 := Nat.div_eq_of_lt (by omega)
      simp [h0]
    | cons x xs =>
      have hl' : xs.length + 1 ≤ n + 1 := by simpa using hl
      rw [chunks_cons hB, List.length_cons]
      have hdl : ((x :: xs).drop B).length = xs.length + 1 - B := by
        simp [List.length_drop]
      rw [ih _ (by rw [hdl]; omega), hdl]
      simp only [List.length_cons]
      by_cases hle : xs.length + 1 ≤ B
      · have h1 : xs.length + 1 - B = 0 := by omega
        have h2 : (0 + B - 1) / B = 0 := Nat.div_eq_of_lt (by omega)
        have h3 : (xs.length + 1 + B - 1) / B = 1 := by
          apply Nat.div_eq_of_lt_le <;> omega
        rw [h1, h2, h3]
      · have h1 : xs.length + 1 - B + B - 1 = xs.length := by omega
        have h2 : xs.length + 1 + B - 1 = xs.length + B := by omega
        rw [h1, h2, Nat.add_div_right _ (by omega)]

theorem chunks_flatten {α : Type} {B : Nat} (hB : 1 ≤ B) (l : List α) :
    (chunks B l).flatten = l := by
  suffices h : ∀ (n : Nat) (l : List α), l.length ≤ n → (chunks B l).flatten = l from
    h l.length l (le_refl _)
  intro n
  induction n with
  | zero =>
    intro l hl
    have : l = [] := List.length_eq_zero.mp (Nat.le_zero.mp hl)
    subst this
    rfl
  | succ n ih =>
    intro l hl
    cases l with
    | nil => rfl
    | cons x xs =>
      rw [chunks_cons hB, List.flatten_cons,
          ih _ (by simp only [List.length_drop, List.length_cons] at *; omega)]
      exact List.take_append_drop B (x :: xs)

theorem chunks_dropLast_sizes {α : Type} {B : Nat} (hB : 1 ≤ B) (l : List α) :
    ∀ c ∈ (chunks B l).dropLast, c.length = B := by
  suffices h : ∀ (n : Nat) (l : List α), l.length ≤ n →
      ∀ c ∈ (chunks B l).dropLast, c.length = B from h l.length l (le_refl _)
  intro n
  induction n with
  | zero =>
    intro l hl
    have : l = [] := List.length_eq_zero.mp (Nat.le_zero.mp hl)
    subst this
    simp [chunks_nil]
  | succ n ih =>
    intro l hl
    cases l with
    | nil => simp [chunks_nil]
    | cons x xs =>
      rw [chunks_cons hB]
      by_cases hd : (x :: xs).drop B = []
      · rw [hd, chunks_nil]
        simp
      · have hc : chunks B ((x :: xs).drop B) ≠ [] :=
          fun hh => hd ((chunks_eq_nil_iff hB _).mp hh)
        rw [List.dropLast_cons_of_ne_nil hc]
        intro c hcmem
        rcases List.mem_cons.mp hcmem with rfl | hcmem
        · have hlen : B < (x :: xs).length := by
            by_contra hno
            exact hd (List.drop_eq_nil_of_le (by omega))
          simp only [List.length_cons] at hlen
          simp [List.length_take]
          omega
        · have hl2 : xs.length + 1 ≤ n + 1 := by simpa using hl
          have hlen2 : ((x :: xs).drop B).length ≤ n := by
            simp only [List.length_drop, List.length_cons]
            omega
          exact ih _ hlen2 c hcmem

theorem chunks_getLast {α : Type} {B : Nat} (hB : 1 ≤ B) (l : List α) :
    ∀ lb, (chunks B l).getLast? = some lb →
      lb.length = l.length - B * ((chunks B l).length - 1) := by
  suffices h : ∀ (n : Nat) (l : List α), l.length ≤ n →
      ∀ lb, (chunks B l).getLast? = some lb →
        lb.length = l.length - B * ((chunks B l).length - 1) from
    h l.length l (le_refl _)
  intro n
  induction n with
  | zero =>
    intro l hl lb hlb
    have : l = [] := List.length_eq_zero.mp (Nat.le_zero.mp hl)
    subst this
    rw [chunks_nil] at hlb
    cases hlb
  | succ n ih =>
    intro l hl lb hlb
    cases l with
    | nil =>
      rw [chunks_nil] at hlb
      cases hlb
    | cons x xs =>
      rw [chunks_cons hB] at hlb ⊢
      by_cases hd : (x :: xs).drop B = []
      · rw [hd, chunks_nil] at hlb ⊢
        have hlb2 : (x :: xs).take B = lb := by
          simpa using hlb
        subst hlb2
        have hle : (x :: xs).length ≤ B := by
          have := List.drop_eq_nil_iff.mp hd
          omega
        simp [List.take_of_length_le hle]
      · have hc : chunks B ((x :: xs).drop B) ≠ [] :=
          fun hh => hd ((chunks_eq_nil_iff hB _).mp hh)
        obtain ⟨y, t, hyt⟩ := List.exists_cons_of_ne_nil hc
        rw [hyt] at hlb ⊢
        rw [List.getLast?_cons_cons] at hlb
        have hl2 : xs.length + 1 ≤ n + 1 := by simpa using hl
        have hlen2 : ((x :: xs).drop B).length ≤ n := by
          simp only [List.length_drop, List.length_cons]
          omega
        have ihres := ih _ hlen2 lb (by rw [hyt]; exact hlb)
        rw [hyt] at ihres
        have hlc1 : (y :: t).length - 1 = t.length := by simp
        have hlc2 : ((((x :: xs).take B)) :: y :: t).length - 1 = t.length + 1 := by
          simp
        have hdl : ((x :: xs).drop B).length = (x :: xs).length - B := by
          simp [List.length_drop]
        rw [hlc1, hdl] at ihres
        have hms : B * (t.length + 1) = B * t.length + B := Nat.mul_succ B t.length
        rw [ihres, hlc2, hms]
        omega

theorem chunks_mem_of_flatten {α : Type} : True := trivial

/-- Python `l[::step]` for `step ≥ 1`, written with a countdown counter so
that it evaluates structurally: an element is kept when the counter is 0,
and the counter restarts at `step - 1`. -/
def everyNthGo {α : Type} (step : Nat) : Nat → List α → List α
  | _, [] => []
  | 0, x :: xs => x :: everyNthGo step (step - 1) xs
  | k + 1, _ :: xs => everyNthGo step k xs

def everyNth {α : Type} (step : Nat) (l : List α) : List α := everyNthGo step 0 l

theorem everyNthGo_length {α : Type} {s : Nat} (hs : 1 ≤ s) :
    ∀ (l : List α) (k : Nat), k ≤ s - 1 →
      (everyNthGo s k l).length = (l.length + s - 1 - k) / s := by
  intro l
  induction l with
  | nil =>
    intro k hk
    have h0 : everyNthGo s k ([] : List α) = [] := by cases k <;> rfl
    rw [h0]
    simp only [List.length_nil]
    rw [Nat.div_eq_of_lt (by omega)]
  | cons x xs ih =>
    intro k hk
    cases k with
    | zero =>
      show (x :: everyNthGo s (s - 1) xs).length = _
      rw [List.length_cons, ih (s - 1) (le_refl _)]
      have h1 : xs.length + s - 1 - (s - 1) = xs.length := by omega
      have h2 : (x :: xs).length + s - 1 - 0 = xs.length + s := by
        simp only [List.length_cons]
        omega
      rw [h1, h2, Nat.add_div_right _ (by omega)]
    | succ k' =>
      show (everyNthGo s k' xs).length = _
      rw [ih k' (by omega)]
      have : xs.length + s - 1 - k' = (x :: xs).length + s - 1 - (k' + 1) := by
        simp only [List.length_cons]
        omega
      rw [this]

theorem everyNth_length {α : Type} {s : Nat} (hs : 1 ≤ s) (l : List α) :
    (everyNth s l).length = (l.length + s - 1) / s := by
  rw [everyNth, everyNthGo_length hs l 0 (by omega), Nat.sub_zero]

/-- The selection stage of `prepare_comments_for_analysis`
(comment_analyzer.py 50-61).  The division `len(remaining) // (max_comments
// 2)` is evaluated only when `len(remaining) > max_comments // 2`; when
the divisor is zero Python raises `ZeroDivisionError`, modelled as `none`. -/
def select (comments : List Comment) (maxComments : Nat) : Option (List Comment) :=
  if (sortByDesc (fun c : Comment => c.numRecommends) comments).length > maxComments then
    if ((sortByDesc (fun c : Comment => c.numRecommends) comments).drop
          (maxComments / 2)).length > maxComments / 2 then
      if maxComments / 2 = 0 then none
      else
        some (((sortByDesc (fun c : Comment => c.numRecommends) comments).take
            (maxComments / 2))
          ++ (everyNth
                (((sortByDesc (fun c : Comment => c.numRecommends) comments).drop
                    (maxComments / 2)).length / (maxComments / 2))
                ((sortByDesc (fun c : Comment => c.numRecommends) comments).drop
                  (maxComments / 2))).take (maxComments / 2))
    else
      some (((sortByDesc (fun c : Comment => c.numRecommends) comments).take
          (maxComments / 2))
        ++ (everyNth 1
              ((sortByDesc (fun c : Comment => c.numRecommends) comments).drop
                (maxComments / 2))).take (maxComments / 2))
  else some (sortByDesc (fun c : Comment => c.numRecommends) comments)

/-- The Batcher (comment_analyzer.py 335-341 and app.py 235-239): re-sort
descending by `numRecommends`, then chunk contiguously. -/
def partition (comments : List Comment) (batchSize : Nat) : List (List Comment) :=
  chunks batchSize (sortByDesc (fun c : Comment => c.numRecommends) comments)

/-- `extract_commercial_opportunities_batched` (comment_analyzer.py
315-360), with the per-batch formatting + LLM call abstracted as the
opaque `analyze` collaborator (its result is the parsed per-batch dict, or
`err` for an unparseable reply). -/
def extract_commercial_opportunities_batched
    (analyze : List Comment → AnalysisResult)
    (comments : List Comment) (batchSize : Nat) : MergedResult :=
  if partition comments batchSize = [] then ⟨[], [], []⟩
  else merge_commercial_results ((partition comments batchSize).map analyze)

/-! ### Re-merging a merged result (for associativity analysis)

`merge_commercial_results` is duck-typed in Python: its own output can be
fed back in as one of the `results`.  The output dicts carry every field,
so the coercions below (`some`-wrapping the optional fields) describe
exactly how the merge loop re-reads a merged entry. -/

section ALInvariant

variable {K : Type} [DecidableEq K] {V : Type} {β : Type}
variable (keyf : β → Option K) (seed : β → V) (upd : V → β → V)
variable (valKey : V → Option K) (coe : V → β)

/-- Every stored value still carries the key it is filed under. -/
def ALInv (m : List (K × V)) : Prop := ∀ p ∈ m, valKey p.2 = some p.1

theorem ALInv_upsert (k : K) (u : V → V) (s : V)
    (hs : valKey s = some k) (hu : ∀ v, valKey (u v) = valKey v) :
    ∀ m : List (K × V), ALInv valKey m → ALInv valKey (alUpsert k u s m) := by
  intro m
  induction m with
  | nil =>
    intro _ p hp
    rcases List.mem_singleton.mp hp with rfl
    exact hs
  | cons q m ih =>
    obtain ⟨k', v⟩ := q
    intro hm p hp
    by_cases h : k' = k
    · simp only [alUpsert, if_pos h] at hp
      rcases List.mem_cons.mp hp with rfl | hp2
      · show valKey (u v) = some k'
        rw [hu v]
        exact hm (k', v) (List.mem_cons_self _ _)
      · exact hm p (List.mem_cons_of_mem _ hp2)
    · simp only [alUpsert, if_neg h] at hp
      rcases List.mem_cons.mp hp with rfl | hp2
      · exact hm (k', v) (List.mem_cons_self _ _)
      · exact ih (fun q hq => hm q (List.mem_cons_of_mem _ hq)) p hp2

theorem ALInv_foldl_insStep
    (hseed : ∀ b k, keyf b = some k → valKey (seed b) = some k)
    (hupd : ∀ v b, valKey (upd v b) = valKey v) :
    ∀ (bs : List β) (m : List (K × V)), ALInv valKey m →
      ALInv valKey (bs.foldl (insStep keyf seed upd) m) := by
  intro bs
  induction bs with
  | nil => exact fun m hm => hm
  | cons b bs ih =>
    intro m hm
    rw [List.foldl_cons]
    refine ih _ ?_
    unfold insStep
    cases hb : keyf b with
    | none => exact hm
    | some k =>
      exact ALInv_upsert valKey k _ _ (hseed b k hb) (fun v => hupd v b) m hm

theorem filter_eq_of_lookup (k : K) :
    ∀ m : List (K × V), (alKeys m).Nodup →
      m.filter (fun p => decide (p.1 = k))
        = match alLookup k m with | some v => [(k, v)] | none => [] := by
  intro m
  induction m with
  | nil => intro _; rfl
  | cons q m ih =>
    obtain ⟨k', v⟩ := q
    intro hnd
    have hnd2 := List.nodup_cons.mp (show (k' :: alKeys m).Nodup from hnd)
    by_cases h : k' = k
    · subst h
      rw [List.filter_cons]
      have hnone : m.filter (fun p => decide (p.1 = k')) = [] := by
        refine List.filter_eq_nil_iff.mpr ?_
        intro p hp hdec
        have : p.1 = k' := of_decide_eq_true hdec
        exact hnd2.1 (this ▸ List.mem_map.mpr ⟨p, hp, rfl⟩)
      simp [alLookup, hnone]
    · rw [List.filter_cons]
      have hlk : alLookup k ((k', v) :: m) = alLookup k m := by
        simp [alLookup, h]
      rw [hlk, ← ih hnd2.2]
      simp [h]

theorem alLookup_append_none {k : K} :
    ∀ (m1 m2 : List (K × V)), alLookup k m1 = none →
      alLookup k (m1 ++ m2) = alLookup k m2 := by
  intro m1
  induction m1 with
  | nil => intro m2 _; rfl
  | cons q m ih =>
    obtain ⟨k', v⟩ := q
    intro m2 h
    by_cases hk : k' = k
    · simp [alLookup, hk] at h
    · simp only [alLookup, if_neg hk] at h
      rw [List.cons_append]
      simp only [alLookup, if_neg hk]
      exact ih m2 h

theorem alUpsert_append_of_none {k : K} (u : V → V) (s : V) :
    ∀ m : List (K × V), alLookup k m = none → alUpsert k u s m = m ++ [(k, s)] := by
  intro m
  induction m with
  | nil => intro _; rfl
  | cons q m ih =>
    obtain ⟨k', v⟩ := q
    intro h
    by_cases hk : k' = k
    · simp [alLookup, hk] at h
    · simp only [alLookup, if_neg hk] at h
      simp only [alUpsert, if_neg hk, List.cons_append]
      rw [ih h]

theorem foldl_lookup_congr (k : K) (bs : List β) (m1 m2 : List (K × V))
    (h : ∀ k', alLookup k' m1 = alLookup k' m2) :
    alLookup k (bs.foldl (insStep keyf seed upd) m1)
      = alLookup k (bs.foldl (insStep keyf seed upd) m2) := by
  rw [alLookup_foldl_insStep, alLookup_foldl_insStep, h k]

theorem filter_map_snd (p : V → Bool) :
    ∀ m : List (K × V), (m.map Prod.snd).filter p
      = (m.filter (fun q => p q.2)).map Prod.snd := by
  intro m
  induction m with
  | nil => rfl
  | cons q m ih =>
    obtain ⟨k', v⟩ := q
    rw [List.map_cons, List.filter_cons, List.filter_cons, ih]
    by_cases h : p v
    · simp [h]
    · simp [h]

theorem filter_map_coe (p : β → Bool) :
    ∀ vl : List V, (vl.map coe).filter p
      = (vl.filter (fun v => p (coe v))).map coe := by
  intro vl
  induction vl with
  | nil => rfl
  | cons v vl ih =>
    rw [List.map_cons, List.filter_cons, List.filter_cons, ih]
    by_cases h : p (coe v)
    · simp [h]
    · simp [h]

/-- A permutation of a deduplicated dict's values, filtered on one key,
is the singleton holding that key's value (or empty). -/
theorem filter_values_lookup (k : K) (m : List (K × V))
    (hInv : ALInv valKey m) (hnd : (alKeys m).Nodup)
    (vl : List V) (hperm : vl.Perm (m.map Prod.snd)) :
    vl.filter (fun v => decide (valKey v = some k))
      = match alLookup k m with | some v => [v] | none => [] := by
  have h1 : (m.map Prod.snd).filter (fun v => decide (valKey v = some k))
      = (m.filter (fun q => decide (valKey q.2 = some k))).map Prod.snd :=
    filter_map_snd _ m
  have h2 : m.filter (fun q => decide (valKey q.2 = some k))
      = m.filter (fun q => decide (q.1 = k)) := by
    refine List.filter_congr ?_
    intro q hq
    rw [hInv q hq]
    exact decide_eq_decide.mpr (by simp)
  have hp : (vl.filter (fun v => decide (valKey v = some k))).Perm
      ((m.filter (fun q => decide (q.1 = k))).map Prod.snd) := by
    rw [← h2, ← h1]
    exact hperm.filter _
  rw [filter_eq_of_lookup k m hnd] at hp
  cases hl : alLookup k m with
  | some v =>
    rw [hl] at hp
    exact List.perm_singleton.mp (by simpa using hp)
  | none =>
    rw [hl] at hp
    simpa using hp.eq_nil

/-- Folding the coerced values of a deduplicated dict (in any order) into
an empty dict reproduces the dict's lookups. -/
theorem lookup_fold_values (k : K)
    (hkc : ∀ v, keyf (coe v) = valKey v) (hsc : ∀ v, seed (coe v) = v)
    (m : List (K × V)) (hInv : ALInv valKey m) (hnd : (alKeys m).Nodup)
    (vl : List V) (hperm : vl.Perm (m.map Prod.snd)) :
    alLookup k ((vl.map coe).foldl (insStep keyf seed upd) [])
      = alLookup k m := by
  rw [alLookup_foldl_insStep]
  have hocc : occsOf keyf k (vl.map coe)
      = (vl.filter (fun v => decide (valKey v = some k))).map coe := by
    rw [occsOf, filter_map_coe]
    congr 1
    refine List.filter_congr ?_
    intro v _
    rw [hkc v]
  rw [hocc, filter_values_lookup valKey k m hInv hnd vl hperm]
  cases hl : alLookup k m with
  | none => simp [alLookup]
  | some v => simp [alLookup, hsc]

theorem foldl_insStep_reconstruct (keyfV : V → Option K) (updV : V → V → V) :
    ∀ (m acc : List (K × V)),
      (∀ p ∈ m, keyfV p.2 = some p.1) → (alKeys m).Nodup →
      (∀ p ∈ m, alLookup p.1 acc = none) →
      (m.map Prod.snd).foldl (insStep keyfV id updV) acc = acc ++ m := by
  intro m
  induction m with
  | nil =>
    intro acc _ _ _
    simp
  | cons q m ih =>
    obtain ⟨k, v⟩ := q
    intro acc hInv hnd hfresh
    rw [List.map_cons, List.foldl_cons]
    have hk : keyfV v = some k := hInv (k, v) (List.mem_cons_self _ _)
    have hlacc : alLookup k acc = none := hfresh (k, v) (List.mem_cons_self _ _)
    have hstep : insStep keyfV id updV acc v = acc ++ [(k, v)] := by
      unfold insStep
      rw [hk]
      exact alUpsert_append_of_none _ _ acc hlacc
    rw [hstep]
    have hnd2 := List.nodup_cons.mp (show (k :: alKeys m).Nodup from hnd)
    rw [ih (acc ++ [(k, v)]) (fun p hp => hInv p (List.mem_cons_of_mem _ hp))
        hnd2.2 ?_]
    · rw [List.append_assoc]
      rfl
    · intro p hp
      have hpk : ¬ (k = p.1) := by
        intro he
        exact hnd2.1 (he ▸ List.mem_map.mpr ⟨p, hp, rfl⟩)
      rw [alLookup_append_none _ _ (hfresh p (List.mem_cons_of_mem _ hp))]
      simp [alLookup, hpk]

end ALInvariant

/-- How the merge loop re-reads a merged brand entry (all fields present). -/
def brandOutToIn (v : BrandOut) : BrandIn :=
  ⟨v.name, some v.category, some v.sentiment, some v.mentions⟩

/-- How the merge loop re-reads a merged recommendation entry. -/
def recOutToIn (r : RecOut) : RecIn :=
  ⟨r.item, some r.category, some r.quote, some r.endorsements⟩

/-- A `MergedResult` viewed as an `AnalysisResult` (Python duck typing:
the output dict of `merge_commercial_results` fed back in as an input). -/
def toAnalysisResult (m : MergedResult) : AnalysisResult :=
  AnalysisResult.ok (m.brands.map brandOutToIn) (m.recommendations.map recOutToIn)
    m.opportunities

/-- The key a merged brand entry re-normalizes to. -/
def brandValKey (v : BrandOut) : Option String :=
  if pyLower v.name = "" then none else some (pyLower v.name)

/-- The key a merged recommendation entry re-normalizes to. -/
def recValKey (v : RecOut) : Option String :=
  if pyLower v.item = "" then none else some (pyLower v.item)

theorem brandsAL_inv (rs : List AnalysisResult) :
    ALInv brandValKey (brandsAL rs) := by
  refine ALInv_foldl_insStep brandKeyf seedBrand updBrand brandValKey
    ?_ (fun v b => rfl) (allBrands rs) [] ?_
  · intro b k hb
    show brandKeyf b = some k
    exact hb
  · intro p hp
    cases hp

theorem recsAL_inv (rs : List AnalysisResult) :
    ALInv recValKey (recsAL rs) := by
  refine ALInv_foldl_insStep recKeyf seedRec updRec recValKey
    ?_ (fun v b => rfl) (allRecs rs) [] ?_
  · intro b k hb
    show recKeyf b = some k
    exact hb
  · intro p hp
    cases hp

theorem oppsAL_inv (rs : List AnalysisResult) :
    ALInv oppKeyf (oppsAL rs) := by
  refine ALInv_foldl_insStep oppKeyf id updOpp oppKeyf
    ?_ (fun v b => rfl) (allOpps rs) [] ?_
  · intro b k hb
    exact hb
  · intro p hp
    cases hp

theorem brandsAL_nodup (rs : List AnalysisResult) :
    (alKeys (brandsAL rs)).Nodup :=
  alKeys_nodup_foldl_insStep _ _ _ (allBrands rs) [] (by simp [alKeys])

theorem recsAL_nodup (rs : List AnalysisResult) :
    (alKeys (recsAL rs)).Nodup :=
  alKeys_nodup_foldl_insStep _ _ _ (allRecs rs) [] (by simp [alKeys])

theorem oppsAL_nodup (rs : List AnalysisResult) :
    (alKeys (oppsAL rs)).Nodup :=
  alKeys_nodup_foldl_insStep _ _ _ (allOpps rs) [] (by simp [alKeys])

theorem allBrands_cons (r : AnalysisResult) (rs : List AnalysisResult) :
    allBrands (r :: rs)
      = (match r with | .ok bs _ _ => bs | .err => []) ++ allBrands rs := rfl

theorem allRecs_cons (r : AnalysisResult) (rs : List AnalysisResult) :
    allRecs (r :: rs)
      = (match r with | .ok _ rcs _ => rcs | .err => []) ++ allRecs rs := rfl

theorem allOpps_cons (r : AnalysisResult) (rs : List AnalysisResult) :
    allOpps (r :: rs)
      = (match r with | .ok _ _ os => os | .err => []) ++ allOpps rs := rfl

/-! ### SSE pipeline flows (app.py)

The generators `generate_analysis` (single-article) and
`generate_keyword_analysis` (keyword search) are modelled as functions
from their external collaborators (API-key presence, scraper results, and
fetch outcomes, all `Except`-valued where Python may raise) to the list
of emitted SSE events paired with the number of AnalysisClient calls
made.  Result-event payloads and some progress-message dynamic text are
elided; event types, order, terminal events and call counts follow the
source. -/

inductive EvType where
  | progress
  | result
  | complete
  | error
deriving DecidableEq

structure Event where
  type : EvType
  message : String
deriving DecidableEq

/-- A terminal SSE event: `complete` or `error`. -/
def isTerminal (e : Event) : Bool :=
  match e.type with
  | EvType.complete => true
  | EvType.error => true
  | _ => false

structure Scraped where
  comments : List Comment
  title : String

/-- Python `s[:n]`. -/
def pyTake (n : Nat) (s : String) : String := ⟨s.data.take n⟩

/-- `generate_analysis` (app.py 35-101): the single-article flow.
Events and the number of analysis calls, as a function of the API-key
check, `extract_short_url` and `fetch_all_comments` outcomes.  In the
non-empty path the three analyses (questions, sentiment, commercial) are
dispatched sequentially — 3 calls. -/
def generate_analysis (hasKey : Bool) (extractShort : Except String String)
    (fetchAll : String → Except String Scraped) : List Event × Nat :=
  if hasKey = false then
    ([⟨EvType.error,
        "ANTHROPIC_API_KEY environment variable not set. Set it before starting the server."⟩],
     0)
  else
    match extractShort with
    | Except.error e => ([⟨EvType.progress, "Extracting discussion key..."⟩,
        ⟨EvType.error, e⟩], 0)
    | Except.ok shortUrl =>
      match fetchAll shortUrl with
      | Except.error e =>
        ([⟨EvType.progress, "Extracting discussion key..."⟩,
          ⟨EvType.progress, "Found key " ++ shortUrl ++ ". Fetching comments..."⟩,
          ⟨EvType.error, e⟩], 0)
      | Except.ok scraped =>
        ([⟨EvType.progress, "Extracting discussion key..."⟩,
          ⟨EvType.progress, "Found key " ++ shortUrl ++ ". Fetching comments..."⟩,
          ⟨EvType.progress,
            "Scraped " ++ toString scraped.comments.length ++ " comments"⟩,
          ⟨EvType.result, "meta"⟩]
            ++ (if scraped.comments.length = 0 then
                  [⟨EvType.complete, "No comments to analyze."⟩]
                else
                  [⟨EvType.progress, "Preparing comments for analysis..."⟩,
                   ⟨EvType.progress, "Generating discussion questions..."⟩,
                   ⟨EvType.result, "discussionQuestions"⟩,
                   ⟨EvType.progress, "Analyzing sentiment..."⟩,
                   ⟨EvType.result, "sentiment"⟩,
                   ⟨EvType.progress, "Extracting commercial opportunities..."⟩,
                   ⟨EvType.result, "commercialOpportunities"⟩,
                   ⟨EvType.complete, "Analysis complete"⟩]),
         if scraped.comments.length = 0 then 0 else 3)

structure Article where
  title : String
  url : String
  short_url : String
deriving DecidableEq

/-- The per-article scraping loop of `generate_keyword_analysis` (app.py
183-211): one progress event per article, a warning progress event on a
fetch failure, and the concatenation of all fetched comments. -/
def scrapeLoop (fetch : Article → Except String (List Comment)) (n : Nat) :
    Nat → List Article → List Event × List Comment
  | _, [] => ([], [])
  | i, a :: rest =>
    match fetch a with
    | Except.ok comments =>
      (⟨EvType.progress,
          "Scraping comments from article " ++ toString (i + 1) ++ "/"
            ++ toString n ++ ": " ++ pyTake 50 a.title ++ "..."⟩
        :: (scrapeLoop fetch n (i + 1) rest).1,
       comments ++ (scrapeLoop fetch n (i + 1) rest).2)
    | Except.error _ =>
      (⟨EvType.progress,
          "Scraping comments from article " ++ toString (i + 1) ++ "/"
            ++ toString n ++ ": " ++ pyTake 50 a.title ++ "..."⟩
        :: ⟨EvType.progress,
            "Warning: Could not fetch comments for article " ++ toString (i + 1)⟩
        :: (scrapeLoop fetch n (i + 1) rest).1,
       (scrapeLoop fetch n (i + 1) rest).2)

/-- `generate_keyword_analysis` (app.py 132-275): the keyword flow.
Events and the number of per-batch analysis calls. -/
def generate_keyword_analysis (hasAnthropic hasGuardian : Bool)
    (search : Except String (List Article))
    (fetch : Article → Except String (List Comment))
    (keyword : String) : List Event × Nat :=
  if hasAnthropic = false then
    ([⟨EvType.error, "ANTHROPIC_API_KEY environment variable not set."⟩], 0)
  else if hasGuardian = false then
    ([⟨EvType.error, "GUARDIAN_API_KEY environment variable not set."⟩], 0)
  else
    match search with
    | Except.error e =>
      ([⟨EvType.progress, "Searching for articles about '" ++ keyword ++ "'..."⟩,
        ⟨EvType.error, e⟩], 0)
    | Except.ok articles =>
      if articles = [] then
        ([⟨EvType.progress, "Searching for articles about '" ++ keyword ++ "'..."⟩,
          ⟨EvType.error, "No articles found for '" ++ keyword ++ "'"⟩], 0)
      else if (scrapeLoop fetch articles.length 0 articles).2 = [] then
        (⟨EvType.progress, "Searching for articles about '" ++ keyword ++ "'..."⟩
          :: ⟨EvType.progress, "Found " ++ toString articles.length ++ " articles"⟩
          :: ⟨EvType.result, "articles"⟩
          :: (scrapeLoop fetch articles.length 0 articles).1
          ++ [⟨EvType.error, "No comments found across any articles"⟩], 0)
      else
        (⟨EvType.progress, "Searching for articles about '" ++ keyword ++ "'..."⟩
          :: ⟨EvType.progress, "Found " ++ toString articles.length ++ " articles"⟩
          :: ⟨EvType.result, "articles"⟩
          :: (scrapeLoop fetch articles.length 0 articles).1
          ++ ⟨EvType.result, "meta"⟩
          :: ⟨EvType.progress,
              "Analyzing "
                ++ toString (scrapeLoop fetch articles.length 0 articles).2.length
                ++ " comments in "
                ++ toString (partition (scrapeLoop fetch articles.length 0 articles).2
                      200).length
                ++ " batch(es)..."⟩
          :: ((partition (scrapeLoop fetch articles.length 0 articles).2 200).map
                (fun b => ⟨EvType.progress,
                  "Processing batch (" ++ toString b.length ++ " comments)..."⟩)
              ++ [⟨EvType.result, "commercialOpportunities"⟩,
                  ⟨EvType.complete, "Analysis complete"⟩]),
         (partition (scrapeLoop fetch articles.length 0 articles).2 200).length)

theorem scrapeLoop_comments_nil (fetch : Article → Except String (List Comment))
    (arts : List Article) (h : ∀ a ∈ arts, fetch a = Except.ok []) :
    ∀ n i, (scrapeLoop fetch n i arts).2 = [] := by
  induction arts with
  | nil => intro n i; rfl
  | cons a rest ih =>
    intro n i
    have ha : fetch a = Except.ok [] := h a (List.mem_cons_self a rest)
    show (scrapeLoop fetch n i (a :: rest)).2 = []
    rw [scrapeLoop, ha]
    exact ih (fun x hx => h x (List.mem_cons_of_mem a hx)) n (i + 1)

theorem scrapeLoop_events_progress (fetch : Article → Except String (List Comment))
    (arts : List Article) :
    ∀ n i e, e ∈ (scrapeLoop fetch n i arts).1 → e.type = EvType.progress := by
  induction arts with
  | nil => intro n i e he; cases he
  | cons a rest ih =>
    intro n i e he
    rw [scrapeLoop] at he
    cases hf : fetch a with
    | ok comments =>
      rw [hf] at he
      rcases List.mem_cons.mp he with rfl | he2
      · rfl
      · exact ih n (i + 1) e he2
    | error msg =>
      rw [hf] at he
      rcases List.mem_cons.mp he with rfl | he2
      · rfl
      · rcases List.mem_cons.mp he2 with rfl | he3
        · rfl
        · exact ih n (i + 1) e he3

/-! ### Claim theorems -/

/-- C10: the comment cleaning/formatting function is idempotent:
stripping tags, collapsing whitespace and trimming are a no-op on their
own output, so `clean_html (clean_html s) = clean_html s` for every
string `s`. -/
theorem C10_clean_html_idempotent (s : String) :
    clean_html (clean_html s) = clean_html s := by
  show (⟨pyStrip (collapseWs (stripTags
      (pyStrip (collapseWs (stripTags s.data)))))⟩ : String)
    = ⟨pyStrip (collapseWs (stripTags s.data))⟩
  have hTt : TagFree (stripTags s.data) := tagFree_stripTags _
  have hTz : TagFree (collapseWs (stripTags s.data)) := tagFree_collapseWs hTt
  have hTy : TagFree (pyStrip (collapseWs (stripTags s.data))) :=
    TagFree_pre
      (TagFree_suffix hTz (List.dropWhile_suffix isWs))
      (dropTrailingWs_pre _)
  have hCz : Collapsed (collapseWs (stripTags s.data)) := collapsed_collapseWs _
  have hCy : Collapsed (pyStrip (collapseWs (stripTags s.data))) :=
    collapsed_pre
      (collapsed_suffix hCz (List.dropWhile_suffix isWs))
      (dropTrailingWs_pre _)
  rw [stripTags_of_tagFree hTy, collapseWs_of_collapsed hCy]
  show (⟨pyStrip (pyStrip (collapseWs (stripTags s.data)))⟩ : String) = _
  rw [pyStrip_idem]

/-- C1: brand merging.  For every normalized (case-folded) key: the entry
exists iff some contributing record has that key; its total mentions is
the sum of the incoming `mentions` (default 1); `name` and `category`
come from the first occurrence; the final sentiment is the last polarized
incoming sentiment if any record after the first carries one, else the
first occurrence's sentiment (default `"neutral"`) — i.e. sentiment is
overwritten exactly by polarized values.  The output list is the merged
entries sorted descending by mentions, stably (ties keep first-encounter
order; the dict's keys are in first-encounter order).  The
`Nike`/`NIKE` example merges to `{name: "Nike", mentions: 5, sentiment:
"positive"}`. -/
theorem C1_merge_brands_dedup (rs : List AnalysisResult) :
    (∀ k, (alLookup k (brandsAL rs)).map BrandOut.mentions
        = match occsOf brandKeyf k (allBrands rs) with
          | [] => none
          | b :: rest => some (b.mentions.getD 1
              + (rest.map (fun x => x.mentions.getD 1)).sum))
    ∧ (∀ k, (alLookup k (brandsAL rs)).map BrandOut.name
        = ((occsOf brandKeyf k (allBrands rs)).head?).map BrandIn.name)
    ∧ (∀ k, (alLookup k (brandsAL rs)).map BrandOut.category
        = ((occsOf brandKeyf k (allBrands rs)).head?).map (fun b => b.category.getD ""))
    ∧ (∀ k, (alLookup k (brandsAL rs)).map BrandOut.sentiment
        = match occsOf brandKeyf k (allBrands rs) with
          | [] => none
          | b :: rest => some (((rest.filterMap polarizedOf).getLast?).getD
              (b.sentiment.getD "neutral")))
    ∧ (merge_commercial_results rs).brands
        = sortByDesc (fun x : BrandOut => x.mentions) ((brandsAL rs).map Prod.snd)
    ∧ ((merge_commercial_results rs).brands).Pairwise
        (fun x y => y.mentions ≤ x.mentions)
    ∧ (∀ v : Int, ((merge_commercial_results rs).brands).filter
          (fun b => decide (b.mentions = v))
        = ((brandsAL rs).map Prod.snd).filter (fun b => decide (b.mentions = v)))
    ∧ alKeys (brandsAL rs) = newKeysOf brandKeyf [] (allBrands rs)
    ∧ merge_commercial_results
        [AnalysisResult.ok [⟨"Nike", none, some "neutral", some 3⟩] [] [],
         AnalysisResult.ok [⟨"NIKE", none, some "positive", some 2⟩] [] []]
        = ⟨[⟨"Nike", "", "positive", 5⟩], [], []⟩ := by
  refine ⟨brandLookup_mentions rs, brandLookup_name rs, brandLookup_category rs,
    brandLookup_sentiment rs, ?_, ?_, ?_, ?_, ?_⟩
  · rw [merge_commercial_results_eq]
  · rw [merge_commercial_results_eq]
    exact sortByDesc_sorted _ _
  · intro v
    rw [merge_commercial_results_eq]
    exact sortByDesc_filter _ v _
  · rw [brandsAL]
    have := alKeys_foldl_insStep brandKeyf seedBrand updBrand (allBrands rs) []
    simpa [alKeys] using this
  · decide

/-- C8: opportunity merging.  The key is the pair of case-folded target
and type; the stored record is exactly the first occurrence (later
duplicates are dropped whole, so only the first-seen rationale survives);
records with an empty normalized target never enter the map (any key with
empty first component looks up to `none`); the output keeps first-seen
order, truncated to the first 5; the dict's keys are in first-encounter
order. -/
theorem C8_opportunity_dedup (rs : List AnalysisResult) :
    (∀ k, alLookup k (oppsAL rs) = (occsOf oppKeyf k (allOpps rs)).head?)
    ∧ (∀ ty, alLookup ("", ty) (oppsAL rs) = none)
    ∧ (merge_commercial_results rs).opportunities
        = ((oppsAL rs).map Prod.snd).take 5
    ∧ alKeys (oppsAL rs) = newKeysOf oppKeyf [] (allOpps rs) := by
  refine ⟨oppLookup rs, ?_, ?_, ?_⟩
  · intro ty
    rw [oppLookup]
    cases hocc : occsOf oppKeyf ("", ty) (allOpps rs) with
    | nil => rfl
    | cons o rest =>
      exfalso
      have hmem : o ∈ occsOf oppKeyf ("", ty) (allOpps rs) := by
        rw [hocc]
        exact List.mem_cons_self o rest
      have hkey : oppKeyf o = some ("", ty) := by
        have := List.of_mem_filter hmem
        simpa using this
      unfold oppKeyf at hkey
      by_cases hemp : pyLower o.target = ""
      · rw [if_pos hemp] at hkey
        cases hkey
      · rw [if_neg hemp] at hkey
        injection hkey with hkey
        exact hemp (congrArg Prod.fst hkey)
  · rw [merge_commercial_results_eq]
  · rw [oppsAL]
    have := alKeys_foldl_insStep oppKeyf id updOpp (allOpps rs) []
    simpa [alKeys] using this

/-- C6: merging zero valid results — the empty sequence, or one whose
every element is falsy/error-marked — yields the canonical empty
`MergedResult`; error-marked results are skipped entirely: merging any
list equals merging its non-error sublist. -/
theorem C6_merge_zero_valid :
    (∀ rs : List AnalysisResult, (∀ r ∈ rs, r.isErr = true) →
      merge_commercial_results rs = ⟨[], [], []⟩)
    ∧ (∀ rs : List AnalysisResult,
      merge_commercial_results rs
        = merge_commercial_results (rs.filter (fun r => !r.isErr))) :=
  ⟨fun _ h => merge_of_all_err h, merge_filter_err⟩

/-- Witness for C6 at concrete inputs: two error results merge to the
empty result, and an error result among valid ones is dropped. -/
theorem C6_merge_zero_valid_witness :
    merge_commercial_results [AnalysisResult.err, AnalysisResult.err] = ⟨[], [], []⟩
    ∧ merge_commercial_results
        [AnalysisResult.err, AnalysisResult.ok [] [] []]
      = merge_commercial_results
          (([AnalysisResult.err, AnalysisResult.ok [] [] []]).filter
            (fun r => !r.isErr)) :=
  ⟨C6_merge_zero_valid.1 [AnalysisResult.err, AnalysisResult.err]
      (by intro r hr; rcases List.mem_cons.mp hr with rfl | hr
          · rfl
          · rcases List.mem_cons.mp hr with rfl | hr
            · rfl
            · cases hr),
   C6_merge_zero_valid.2 [AnalysisResult.err, AnalysisResult.ok [] [] []]⟩

/-- C3 (amended): for a comment list longer than `maxCount` with
`maxCount ≥ 2`, `select` succeeds and returns `2 * (maxCount / 2)`
comments (equal to `maxCount` only when `maxCount` is even); the first
`maxCount / 2` are the top of the stable descending sort by
`numRecommends` (which is sorted, a permutation of the input, and stable
on ties), and the rest are the evenly spaced sample of the remainder with
stride `len(remainder) / (maxCount / 2)`, truncated to `maxCount / 2`. -/
theorem C3_selector_oversized_amended (c : List Comment) (m : Nat)
    (h2 : 2 ≤ m) (hlen : m < c.length) :
    ∃ out, select c m = some out
      ∧ out.length = 2 * (m / 2)
      ∧ out.take (m / 2)
          = (sortByDesc (fun x : Comment => x.numRecommends) c).take (m / 2)
      ∧ out.drop (m / 2)
          = (everyNth
              (((sortByDesc (fun x : Comment => x.numRecommends) c).drop
                  (m / 2)).length / (m / 2))
              ((sortByDesc (fun x : Comment => x.numRecommends) c).drop
                (m / 2))).take (m / 2)
      ∧ (sortByDesc (fun x : Comment => x.numRecommends) c).Pairwise
          (fun a b => b.numRecommends ≤ a.numRecommends)
      ∧ (sortByDesc (fun x : Comment => x.numRecommends) c).Perm c
      ∧ (∀ v : Nat, (sortByDesc (fun x : Comment => x.numRecommends) c).filter
            (fun a => decide (a.numRecommends = v))
          = c.filter (fun a => decide (a.numRecommends = v))) := by
  have hslen : (sortByDesc (fun x : Comment => x.numRecommends) c).length
      = c.length := sortByDesc_length _ c
  have hrl : ((sortByDesc (fun x : Comment => x.numRecommends) c).drop
      (m / 2)).length = c.length - m / 2 := by
    simp [List.length_drop, hslen]
  have hcond1 : (sortByDesc (fun x : Comment => x.numRecommends) c).length > m := by
    rw [hslen]
    omega
  have hcond2 : ((sortByDesc (fun x : Comment => x.numRecommends) c).drop
      (m / 2)).length > m / 2 := by
    rw [hrl]
    omega
  have hne : ¬ (m / 2 = 0) := by omega
  have hstep1 : 1 ≤ ((sortByDesc (fun x : Comment => x.numRecommends) c).drop
      (m / 2)).length / (m / 2) :=
    (Nat.one_le_div_iff (by omega)).mpr (by omega)
  refine ⟨_, by rw [select, if_pos hcond1, if_pos hcond2, if_neg hne],
    ?_, ?_, ?_, sortByDesc_sorted _ c, sortByDesc_perm _ c,
    fun v => sortByDesc_filter _ v c⟩
  · rw [List.length_append, List.length_take, List.length_take,
        everyNth_length hstep1, hslen, hrl]
    have hS1 : 1 ≤ (c.length - m / 2) / (m / 2) :=
      (Nat.one_le_div_iff (by omega)).mpr (by omega)
    have hmulle : (c.length - m / 2) / (m / 2) * (m / 2) ≤ c.length - m / 2 :=
      Nat.div_mul_le_self _ _
    have hceil : m / 2 ≤ (c.length - m / 2
        + (c.length - m / 2) / (m / 2) - 1)
          / ((c.length - m / 2) / (m / 2)) := by
      rw [Nat.le_div_iff_mul_le hS1]
      calc m / 2 * ((c.length - m / 2) / (m / 2))
          = (c.length - m / 2) / (m / 2) * (m / 2) := Nat.mul_comm _ _
        _ ≤ c.length - m / 2 := hmulle
        _ ≤ c.length - m / 2 + (c.length - m / 2) / (m / 2) - 1 := by omega
    omega
  · exact List.take_left' (by rw [List.length_take, hslen]; omega)
  · exact List.drop_left' (by rw [List.length_take, hslen]; omega)

/-- Counterexample to C3 as stated: 4 comments with `maxCount = 3`
(length exceeds `maxCount`) select only 2 comments, not `maxCount = 3`. -/
theorem C3_selector_counterexample :
    ([(⟨"a", 4⟩ : Comment), ⟨"b", 3⟩, ⟨"c", 2⟩, ⟨"d", 1⟩].length > 3)
    ∧ (select [(⟨"a", 4⟩ : Comment), ⟨"b", 3⟩, ⟨"c", 2⟩, ⟨"d", 1⟩] 3).map
        List.length = some 2
    ∧ (select [(⟨"a", 4⟩ : Comment), ⟨"b", 3⟩, ⟨"c", 2⟩, ⟨"d", 1⟩] 3).map
        List.length ≠ some 3 := by
  decide

/-- Witness for C3 (amended) at five comments with `maxCount = 4`:
the selection succeeds with `2 * (4 / 2)` comments. -/
theorem C3_selector_witness :
    (select [(⟨"a", 5⟩ : Comment), ⟨"b", 4⟩, ⟨"c", 3⟩, ⟨"d", 2⟩, ⟨"e", 1⟩] 4).map
        List.length = some (2 * (4 / 2)) := by
  obtain ⟨out, h1, h2, _⟩ :=
    C3_selector_oversized_amended
      [(⟨"a", 5⟩ : Comment), ⟨"b", 4⟩, ⟨"c", 3⟩, ⟨"d", 2⟩, ⟨"e", 1⟩] 4
      (by decide) (by decide)
  rw [h1, Option.map_some', h2]

/-- C9 (amended): on the empty comment list `select` returns the empty
selection for every `maxCount`, but for every nonempty comment list,
`select` with `maxCount = 0` hits the `ZeroDivisionError` in the stride
computation (`len(remaining) // (max_comments // 2)`) instead of
returning the empty sequence. -/
theorem C9_select_edge_amended (m : Nat) (c : List Comment) (hc : c ≠ []) :
    select [] m = some [] ∧ select c 0 = none := by
  constructor
  · rw [select]
    have h0 : sortByDesc (fun x : Comment => x.numRecommends) [] = [] := rfl
    rw [h0]
    simp
  · have hlen0 : 0 < c.length := List.length_pos.mpr hc
    have hslen : (sortByDesc (fun x : Comment => x.numRecommends) c).length
        = c.length := sortByDesc_length _ c
    rw [select]
    rw [if_pos (by rw [hslen]; omega)]
    rw [if_pos (by simp [List.length_drop, hslen]; omega)]
    rw [if_pos (by simp)]

/-- Counterexample to C9 as stated: a single comment with `maxCount = 0`
raises (modelled `none`) instead of returning the empty sequence. -/
theorem C9_select_counterexample :
    select [(⟨"x", 0⟩ : Comment)] 0 = none
    ∧ select [(⟨"x", 0⟩ : Comment)] 0 ≠ some [] := by
  decide

/-- Witness for C9 (amended). -/
theorem C9_select_edge_witness :
    select [] 5 = some [] ∧ select [(⟨"x", 0⟩ : Comment)] 0 = none :=
  C9_select_edge_amended 5 [⟨"x", 0⟩] (by decide)

/-- C4: for every comment list and every `batchSize ≥ 1`, the Batcher
produces `⌈N/B⌉` batches; every batch but the last has exactly `B`
comments and the last has `N - B·(⌈N/B⌉ - 1)`; concatenating the batches
reproduces exactly the input sorted descending by `numRecommends`
(a stable sort: sorted, a permutation, ties in input order); zero
comments yield zero batches. -/
theorem C4_partition_shape (c : List Comment) (B : Nat) (hB : 1 ≤ B) :
    (partition c B).length = (c.length + B - 1) / B
    ∧ (∀ batch ∈ (partition c B).dropLast, batch.length = B)
    ∧ (∀ lb, (partition c B).getLast? = some lb →
        lb.length = c.length - B * ((c.length + B - 1) / B - 1))
    ∧ (partition c B).flatten = sortByDesc (fun x : Comment => x.numRecommends) c
    ∧ (sortByDesc (fun x : Comment => x.numRecommends) c).Pairwise
        (fun a b => b.numRecommends ≤ a.numRecommends)
    ∧ (sortByDesc (fun x : Comment => x.numRecommends) c).Perm c
    ∧ (∀ v : Nat, (sortByDesc (fun x : Comment => x.numRecommends) c).filter
          (fun a => decide (a.numRecommends = v))
        = c.filter (fun a => decide (a.numRecommends = v)))
    ∧ (c = [] → partition c B = []) := by
  have hslen : (sortByDesc (fun x : Comment => x.numRecommends) c).length
      = c.length := sortByDesc_length _ c
  refine ⟨?_, ?_, ?_, ?_, sortByDesc_sorted _ c, sortByDesc_perm _ c,
    fun v => sortByDesc_filter _ v c, ?_⟩
  · rw [partition, chunks_length hB, hslen]
  · intro batch hb
    exact chunks_dropLast_sizes hB _ batch hb
  · intro lb hlb
    have h := chunks_getLast hB _ lb hlb
    rw [hslen, chunks_length hB, hslen] at h
    exact h
  · rw [partition]
    exact chunks_flatten hB _
  · intro hc
    rw [hc]
    rfl

/-- Witness for C4 at three comments with `batchSize = 2`: the batch
count matches the ceiling formula and the concatenation reproduces the
sorted input. -/
theorem C4_partition_witness :
    (partition [(⟨"a", 1⟩ : Comment), ⟨"b", 2⟩, ⟨"c", 3⟩] 2).length
        = ([(⟨"a", 1⟩ : Comment), ⟨"b", 2⟩, ⟨"c", 3⟩].length + 2 - 1) / 2
    ∧ (partition [(⟨"a", 1⟩ : Comment), ⟨"b", 2⟩, ⟨"c", 3⟩] 2).flatten
        = sortByDesc (fun x : Comment => x.numRecommends)
            [(⟨"a", 1⟩ : Comment), ⟨"b", 2⟩, ⟨"c", 3⟩] :=
  ⟨(C4_partition_shape [⟨"a", 1⟩, ⟨"b", 2⟩, ⟨"c", 3⟩] 2 (by decide)).1,
   (C4_partition_shape [⟨"a", 1⟩, ⟨"b", 2⟩, ⟨"c", 3⟩] 2 (by decide)).2.2.2.1⟩

/-- C2: the batched pipeline always merges exactly the successful batch
results: for every oracle, comment list and batch size, the result is the
merge of the non-error per-batch results (a failed batch is skipped, the
loop continues).  For 450 comments with `batchSize = 200` the batches have
sizes 200/200/50, and if batch 2's AnalysisClient call fails the final
result is the merge of batches 1 and 3 alone. -/
theorem C2_batch_failure_isolated (analyze : List Comment → AnalysisResult)
    (c : List Comment) (hc : c.length = 450) :
    (∀ (f : List Comment → AnalysisResult) (cs : List Comment) (B : Nat),
        extract_commercial_opportunities_batched f cs B
          = merge_commercial_results
              (((partition cs B).map f).filter (fun r => !r.isErr)))
    ∧ (partition c 200).map List.length = [200, 200, 50]
    ∧ (∀ b1 b2 b3, partition c 200 = [b1, b2, b3] →
        (analyze b2).isErr = true →
        extract_commercial_opportunities_batched analyze c 200
          = merge_commercial_results [analyze b1, analyze b3]) := by
  have hgen : ∀ (f : List Comment → AnalysisResult) (cs : List Comment) (B : Nat),
      extract_commercial_opportunities_batched f cs B
        = merge_commercial_results
            (((partition cs B).map f).filter (fun r => !r.isErr)) := by
    intro f cs B
    rw [extract_commercial_opportunities_batched]
    by_cases hp : partition cs B = []
    · rw [if_pos hp, hp]
      rfl
    · rw [if_neg hp]
      exact merge_filter_err _
  have hB : (1 : Nat) ≤ 200 := by omega
  have hslen : (sortByDesc (fun x : Comment => x.numRecommends) c).length
      = c.length := sortByDesc_length _ c
  have h3 : (partition c 200).length = 3 := by
    rw [partition, chunks_length hB, hslen, hc]
  refine ⟨hgen, ?_, ?_⟩
  · obtain ⟨b1, b2, b3, hb⟩ := List.length_eq_three.mp h3
    have hd1 : b1.length = 200 := by
      refine chunks_dropLast_sizes hB
        (sortByDesc (fun x : Comment => x.numRecommends) c) b1 ?_
      rw [show chunks 200 (sortByDesc (fun x : Comment => x.numRecommends) c)
            = [b1, b2, b3] from hb]
      simp
    have hd2 : b2.length = 200 := by
      refine chunks_dropLast_sizes hB
        (sortByDesc (fun x : Comment => x.numRecommends) c) b2 ?_
      rw [show chunks 200 (sortByDesc (fun x : Comment => x.numRecommends) c)
            = [b1, b2, b3] from hb]
      simp
    have hd3 : b3.length = 50 := by
      have h := chunks_getLast hB
        (sortByDesc (fun x : Comment => x.numRecommends) c) b3 ?_
      · rw [hslen, hc] at h
        rw [show chunks 200 (sortByDesc (fun x : Comment => x.numRecommends) c)
              = [b1, b2, b3] from hb] at h
        simpa using h
      · rw [show chunks 200 (sortByDesc (fun x : Comment => x.numRecommends) c)
              = [b1, b2, b3] from hb]
        rfl
    rw [hb]
    simp [hd1, hd2, hd3]
  · intro b1 b2 b3 hb herr
    rw [hgen analyze c 200, hb]
    rw [merge_filter_err [analyze b1, analyze b3]]
    congr 1
    simp [List.filter_cons, herr]

set_option maxRecDepth 100000 in
/-- Witness for C2: 450 identical comments, an oracle failing on every
200-comment batch and succeeding on the 50-comment batch: the pipeline
result is the merge of batch 1's and batch 3's results alone. -/
theorem C2_batch_failure_witness :
    (partition (List.replicate 450 (⟨"", 0⟩ : Comment)) 200).map List.length
        = [200, 200, 50]
    ∧ extract_commercial_opportunities_batched
          (fun b : List Comment =>
            if b.length = 50 then AnalysisResult.ok [] [] [] else .err)
          (List.replicate 450 (⟨"", 0⟩ : Comment)) 200
        = merge_commercial_results
            [(fun b : List Comment =>
                if b.length = 50 then AnalysisResult.ok [] [] [] else .err)
               (List.replicate 200 (⟨"", 0⟩ : Comment)),
             (fun b : List Comment =>
                if b.length = 50 then AnalysisResult.ok [] [] [] else .err)
               (List.replicate 50 (⟨"", 0⟩ : Comment))] :=
  ⟨(C2_batch_failure_isolated
      (fun b : List Comment =>
        if b.length = 50 then AnalysisResult.ok [] [] [] else .err)
      (List.replicate 450 (⟨"", 0⟩ : Comment))
      (by rw [List.length_replicate])).2.1,
   (C2_batch_failure_isolated
      (fun b : List Comment =>
        if b.length = 50 then AnalysisResult.ok [] [] [] else .err)
      (List.replicate 450 (⟨"", 0⟩ : Comment))
      (by rw [List.length_replicate])).2.2
     (List.replicate 200 (⟨"", 0⟩ : Comment))
     (List.replicate 200 (⟨"", 0⟩ : Comment))
     (List.replicate 50 (⟨"", 0⟩ : Comment))
     (by decide) (by decide)⟩

/-- A completion-type SSE event. -/
def isCompleteEv (e : Event) : Bool :=
  match e.type with
  | EvType.complete => true
  | _ => false

/-- C7 (amended): with zero comments collected, the single-article flow
emits exactly one terminal event — the completion "No comments to
analyze." — and makes zero analysis calls; the keyword flow (the section
flow is structurally identical) also makes zero analysis calls and emits
exactly one terminal event, but it is an error event ("No comments found
across any articles"), not a completion. -/
theorem C7_empty_input_amended :
    (∀ (su t : String) (fa : String → Except String Scraped),
        fa su = Except.ok ⟨[], t⟩ →
        (generate_analysis true (Except.ok su) fa).2 = 0
        ∧ ((generate_analysis true (Except.ok su) fa).1.filter isTerminal).length = 1
        ∧ (generate_analysis true (Except.ok su) fa).1.getLast?
            = some ⟨EvType.complete, "No comments to analyze."⟩)
    ∧ (∀ (arts : List Article) (fetch : Article → Except String (List Comment))
          (kw : String), arts ≠ [] → (∀ a ∈ arts, fetch a = Except.ok []) →
        (generate_keyword_analysis true true (Except.ok arts) fetch kw).2 = 0
        ∧ ((generate_keyword_analysis true true (Except.ok arts) fetch kw).1.filter
            isTerminal).length = 1
        ∧ (generate_keyword_analysis true true (Except.ok arts) fetch kw).1.getLast?
            = some ⟨EvType.error, "No comments found across any articles"⟩) := by
  constructor
  · intro su t fa hfa
    refine ⟨?_, ?_, ?_⟩ <;> simp [generate_analysis, hfa, isTerminal]
  · intro arts fetch kw harts hfetch
    have hcs : (scrapeLoop fetch arts.length 0 arts).2 = [] :=
      scrapeLoop_comments_nil fetch arts hfetch arts.length 0
    have hprog : ∀ e ∈ (scrapeLoop fetch arts.length 0 arts).1,
        isTerminal e = false := by
      intro e he
      have ht := scrapeLoop_events_progress fetch arts arts.length 0 e he
      simp [isTerminal, ht]
    have hev : (generate_keyword_analysis true true (Except.ok arts) fetch kw).1
        = (⟨EvType.progress, "Searching for articles about '" ++ kw ++ "'..."⟩
            :: ⟨EvType.progress, "Found " ++ toString arts.length ++ " articles"⟩
            :: ⟨EvType.result, "articles"⟩
            :: (scrapeLoop fetch arts.length 0 arts).1)
          ++ [⟨EvType.error, "No comments found across any articles"⟩] := by
      simp [generate_keyword_analysis, harts, hcs]
    have hn : (generate_keyword_analysis true true (Except.ok arts) fetch kw).2
        = 0 := by
      simp [generate_keyword_analysis, harts, hcs]
    refine ⟨hn, ?_, ?_⟩
    · rw [hev]
      have h1 : ((scrapeLoop fetch arts.length 0 arts).1).filter isTerminal = [] :=
        List.filter_eq_nil_iff.mpr
          (fun e he => by rw [hprog e he]; exact Bool.false_ne_true)
      simp [List.filter_append, List.filter_cons, isTerminal, h1]
    · rw [hev, List.getLast?_concat]

/-- Counterexample to C7 as stated: in the keyword flow with one article
and zero comments, the single terminal event is an error event, and no
completion event is emitted at all. -/
theorem C7_empty_input_counterexample :
    (generate_keyword_analysis true true
        (Except.ok [⟨"t", "u", "s"⟩]) (fun _ => Except.ok []) "x").1.getLast?
      = some ⟨EvType.error, "No comments found across any articles"⟩
    ∧ ((generate_keyword_analysis true true
        (Except.ok [⟨"t", "u", "s"⟩]) (fun _ => Except.ok []) "x").1.filter
          isCompleteEv).length = 0 := by
  decide

/-- Witness for C7 (amended) at concrete collaborators. -/
theorem C7_empty_input_witness :
    ((generate_analysis true (Except.ok "p/x")
        (fun _ => Except.ok ⟨[], "T"⟩)).2 = 0
      ∧ ((generate_analysis true (Except.ok "p/x")
          (fun _ => Except.ok ⟨[], "T"⟩)).1.filter isTerminal).length = 1
      ∧ (generate_analysis true (Except.ok "p/x")
          (fun _ => Except.ok ⟨[], "T"⟩)).1.getLast?
          = some ⟨EvType.complete, "No comments to analyze."⟩)
    ∧ ((generate_keyword_analysis true true (Except.ok [⟨"t", "u", "s"⟩])
          (fun _ => Except.ok []) "x").2 = 0
      ∧ ((generate_keyword_analysis true true (Except.ok [⟨"t", "u", "s"⟩])
          (fun _ => Except.ok []) "x").1.filter isTerminal).length = 1
      ∧ (generate_keyword_analysis true true (Except.ok [⟨"t", "u", "s"⟩])
          (fun _ => Except.ok []) "x").1.getLast?
          = some ⟨EvType.error, "No comments found across any articles"⟩) :=
  ⟨C7_empty_input_amended.1 "p/x" "T" (fun _ => Except.ok ⟨[], "T"⟩) rfl,
   C7_empty_input_amended.2 [⟨"t", "u", "s"⟩] (fun _ => Except.ok []) "x"
     (by decide) (fun _ _ => rfl)⟩

theorem allBrands_append (xs ys : List AnalysisResult) :
    allBrands (xs ++ ys) = allBrands xs ++ allBrands ys := by
  simp [allBrands]

theorem allRecs_append (xs ys : List AnalysisResult) :
    allRecs (xs ++ ys) = allRecs xs ++ allRecs ys := by
  simp [allRecs]

theorem allOpps_append (xs ys : List AnalysisResult) :
    allOpps (xs ++ ys) = allOpps xs ++ allOpps ys := by
  simp [allOpps]

/-- Upserting a key that is already present, with an update that changes
nothing, leaves the dict unchanged. -/
theorem alUpsert_eq_self_of_lookup {K V : Type} [DecidableEq K] (k : K)
    (u : V → V) (hu : ∀ v, u v = v) (s : V) :
    ∀ m : List (K × V), (alLookup k m).isSome = true → alUpsert k u s m = m := by
  intro m
  induction m with
  | nil =>
    intro h
    simp [alLookup] at h
  | cons p m ih =>
    obtain ⟨k', v⟩ := p
    intro h
    by_cases he : k' = k
    · simp [alUpsert, he, hu]
    · have h2 : (alLookup k m).isSome = true := by
        simpa [alLookup, he] using h
      simp [alUpsert, he, ih h2]

/-- The opportunities merge loop is append-only: an incoming record whose
key is already present changes nothing (first occurrence wins), and a new
key is appended at the back — so the starting dict survives as a prefix. -/
theorem foldl_insStep_opp_append :
    ∀ (bs : List OppIn) (acc : List ((String × String) × OppIn)),
      ∃ rest, bs.foldl (insStep oppKeyf id updOpp) acc = acc ++ rest := by
  intro bs
  induction bs with
  | nil =>
    exact fun acc => ⟨[], by simp⟩
  | cons b bs ih =>
    intro acc
    rw [List.foldl_cons]
    cases hk : oppKeyf b with
    | none =>
      have hstep : insStep oppKeyf id updOpp acc b = acc := by
        unfold insStep
        rw [hk]
      rw [hstep]
      exact ih acc
    | some k =>
      have hstep : insStep oppKeyf id updOpp acc b
          = alUpsert k (fun v => updOpp v b) b acc := by
        unfold insStep
        rw [hk]
        rfl
      cases hl : alLookup k acc with
      | some v0 =>
        have hs : (alLookup k acc).isSome = true := by rw [hl]; rfl
        rw [hstep,
          alUpsert_eq_self_of_lookup k (fun v => updOpp v b) (fun v => rfl) b acc hs]
        exact ih acc
      | none =>
        rw [hstep, alUpsert_append_of_none _ _ acc hl]
        obtain ⟨rest, hrest⟩ := ih (acc ++ [(k, b)])
        refine ⟨(k, b) :: rest, ?_⟩
        rw [hrest, List.append_assoc]
        rfl

/-- Re-merging the merged brands of `[a, b]` followed by `c` gives the
same brands dict (as a lookup table) as merging `[a, b, c]` directly:
brands are never truncated, and re-seeding a merged entry reproduces it. -/
theorem brands_lookup_nested (a b c : AnalysisResult) :
    ∀ k, alLookup k (brandsAL [toAnalysisResult (merge_commercial_results [a, b]), c])
      = alLookup k (brandsAL [a, b, c]) := by
  intro k
  have hnal : allBrands [toAnalysisResult (merge_commercial_results [a, b]), c]
      = ((merge_commercial_results [a, b]).brands.map brandOutToIn)
        ++ allBrands [c] := rfl
  have hnl : brandsAL [toAnalysisResult (merge_commercial_results [a, b]), c]
      = (allBrands [c]).foldl (insStep brandKeyf seedBrand updBrand)
        (((merge_commercial_results [a, b]).brands.map brandOutToIn).foldl
          (insStep brandKeyf seedBrand updBrand) []) := by
    rw [brandsAL, hnal, List.foldl_append]
  have hfl : brandsAL [a, b, c]
      = (allBrands [c]).foldl (insStep brandKeyf seedBrand updBrand)
        (brandsAL [a, b]) := by
    rw [brandsAL, show ([a, b, c] : List AnalysisResult) = [a, b] ++ [c] from rfl,
        allBrands_append, List.foldl_append]
    rfl
  have hbr : (merge_commercial_results [a, b]).brands
      = sortByDesc (fun x : BrandOut => x.mentions)
        ((brandsAL [a, b]).map Prod.snd) := by
    rw [merge_commercial_results_eq]
  have hpre : ∀ k', alLookup k'
      (((merge_commercial_results [a, b]).brands.map brandOutToIn).foldl
        (insStep brandKeyf seedBrand updBrand) [])
      = alLookup k' (brandsAL [a, b]) := by
    intro k'
    rw [hbr]
    exact lookup_fold_values brandKeyf seedBrand updBrand brandValKey brandOutToIn
      k' (fun v => rfl) (fun v => rfl) (brandsAL [a, b])
      (brandsAL_inv [a, b]) (brandsAL_nodup [a, b]) _ (sortByDesc_perm _ _)
  rw [hnl, hfl]
  exact foldl_lookup_congr brandKeyf seedBrand updBrand k (allBrands [c]) _ _ hpre

/-- As `brands_lookup_nested`, for recommendations, provided the inner
merge's top-8 truncation dropped nothing. -/
theorem recs_lookup_nested (a b c : AnalysisResult)
    (h8 : (recsAL [a, b]).length ≤ 8) :
    ∀ k, alLookup k (recsAL [toAnalysisResult (merge_commercial_results [a, b]), c])
      = alLookup k (recsAL [a, b, c]) := by
  intro k
  have hnal : allRecs [toAnalysisResult (merge_commercial_results [a, b]), c]
      = ((merge_commercial_results [a, b]).recommendations.map recOutToIn)
        ++ allRecs [c] := rfl
  have hnl : recsAL [toAnalysisResult (merge_commercial_results [a, b]), c]
      = (allRecs [c]).foldl (insStep recKeyf seedRec updRec)
        (((merge_commercial_results [a, b]).recommendations.map recOutToIn).foldl
          (insStep recKeyf seedRec updRec) []) := by
    rw [recsAL, hnal, List.foldl_append]
  have hfl : recsAL [a, b, c]
      = (allRecs [c]).foldl (insStep recKeyf seedRec updRec) (recsAL [a, b]) := by
    rw [recsAL, show ([a, b, c] : List AnalysisResult) = [a, b] ++ [c] from rfl,
        allRecs_append, List.foldl_append]
    rfl
  have hlen : (sortByDesc (fun x : RecOut => x.endorsements)
      ((recsAL [a, b]).map Prod.snd)).length ≤ 8 := by
    rw [sortByDesc_length, List.length_map]
    exact h8
  have hrc : (merge_commercial_results [a, b]).recommendations
      = sortByDesc (fun x : RecOut => x.endorsements)
        ((recsAL [a, b]).map Prod.snd) := by
    rw [merge_commercial_results_eq]
    exact List.take_of_length_le hlen
  have hpre : ∀ k', alLookup k'
      (((merge_commercial_results [a, b]).recommendations.map recOutToIn).foldl
        (insStep recKeyf seedRec updRec) [])
      = alLookup k' (recsAL [a, b]) := by
    intro k'
    rw [hrc]
    exact lookup_fold_values recKeyf seedRec updRec recValKey recOutToIn
      k' (fun v => rfl) (fun v => rfl) (recsAL [a, b])
      (recsAL_inv [a, b]) (recsAL_nodup [a, b]) _ (sortByDesc_perm _ _)
  rw [hnl, hfl]
  exact foldl_lookup_congr recKeyf seedRec updRec k (allRecs [c]) _ _ hpre

/-- Re-merging the merged opportunities of `[a, b]` followed by `c` gives
the same final (first-5) opportunities list as merging `[a, b, c]`
directly, unconditionally: the inner first-5 truncation keeps a prefix of
the insertion-ordered dict, re-seeding that prefix reconstructs it, and
the first-wins merge loop only ever appends — so the first five entries
of the two dicts coincide. -/
theorem opps_nested_take_eq (a b c : AnalysisResult) :
    (merge_commercial_results
        [toAnalysisResult (merge_commercial_results [a, b]), c]).opportunities
      = (merge_commercial_results [a, b, c]).opportunities := by
  have h1 := congrArg MergedResult.opportunities
    (merge_commercial_results_eq
      [toAnalysisResult (merge_commercial_results [a, b]), c])
  have h2 := congrArg MergedResult.opportunities
    (merge_commercial_results_eq [a, b, c])
  rw [h1, h2]
  show ((oppsAL [toAnalysisResult (merge_commercial_results [a, b]), c]).map
      Prod.snd).take 5 = ((oppsAL [a, b, c]).map Prod.snd).take 5
  have hP : (merge_commercial_results [a, b]).opportunities
      = ((oppsAL [a, b]).take 5).map Prod.snd := by
    rw [merge_commercial_results_eq]
    show ((oppsAL [a, b]).map Prod.snd).take 5
      = ((oppsAL [a, b]).take 5).map Prod.snd
    rw [List.map_take]
  have hPInv : ∀ p ∈ (oppsAL [a, b]).take 5, oppKeyf p.2 = some p.1 :=
    fun p hp => oppsAL_inv [a, b] p (List.take_subset 5 _ hp)
  have hPnd : (alKeys ((oppsAL [a, b]).take 5)).Nodup := by
    have he : alKeys ((oppsAL [a, b]).take 5) = (alKeys (oppsAL [a, b])).take 5 := by
      simp [alKeys, List.map_take]
    rw [he]
    exact (List.take_sublist 5 _).nodup (oppsAL_nodup [a, b])
  have hrec : ((((oppsAL [a, b]).take 5).map Prod.snd).foldl
      (insStep oppKeyf id updOpp) []) = (oppsAL [a, b]).take 5 := by
    have h := foldl_insStep_reconstruct oppKeyf updOpp ((oppsAL [a, b]).take 5) []
      hPInv hPnd (fun p _ => rfl)
    simpa using h
  have hnal : allOpps [toAnalysisResult (merge_commercial_results [a, b]), c]
      = (merge_commercial_results [a, b]).opportunities ++ allOpps [c] := rfl
  have hnl : oppsAL [toAnalysisResult (merge_commercial_results [a, b]), c]
      = (allOpps [c]).foldl (insStep oppKeyf id updOpp) ((oppsAL [a, b]).take 5) := by
    rw [oppsAL, hnal, List.foldl_append, hP, hrec]
  have hfl : oppsAL [a, b, c]
      = (allOpps [c]).foldl (insStep oppKeyf id updOpp) (oppsAL [a, b]) := by
    rw [oppsAL, show ([a, b, c] : List AnalysisResult) = [a, b] ++ [c] from rfl,
        allOpps_append, List.foldl_append]
    rfl
  rw [hnl, hfl]
  by_cases hlen : (oppsAL [a, b]).length ≤ 5
  · rw [List.take_of_length_le hlen]
  · obtain ⟨r1, hr1⟩ :=
      foldl_insStep_opp_append (allOpps [c]) ((oppsAL [a, b]).take 5)
    obtain ⟨r2, hr2⟩ := foldl_insStep_opp_append (allOpps [c]) (oppsAL [a, b])
    rw [hr1, hr2, List.map_append, List.map_append]
    have hP5 : (((oppsAL [a, b]).take 5).map Prod.snd).length = 5 := by
      rw [List.length_map, List.length_take]
      omega
    rw [List.take_left' hP5]
    have h5le : 5 ≤ ((oppsAL [a, b]).map Prod.snd).length := by
      rw [List.length_map]
      omega
    rw [List.take_append_of_le_length h5le, List.map_take]

/-- The output brands list filtered on one normalized name is the
singleton holding that key's merged entry. -/
theorem brands_output_filter (rs : List AnalysisResult) (k : String) :
    ((merge_commercial_results rs).brands).filter
        (fun x => decide (pyLower x.name = k))
      = match alLookup k (brandsAL rs) with | some v => [v] | none => [] := by
  have hout : (merge_commercial_results rs).brands
      = sortByDesc (fun x : BrandOut => x.mentions)
        ((brandsAL rs).map Prod.snd) := by
    rw [merge_commercial_results_eq]
  rw [hout]
  have hcong : (sortByDesc (fun x : BrandOut => x.mentions)
        ((brandsAL rs).map Prod.snd)).filter
        (fun x => decide (pyLower x.name = k))
      = (sortByDesc (fun x : BrandOut => x.mentions)
        ((brandsAL rs).map Prod.snd)).filter
        (fun x => decide (brandValKey x = some k)) := by
    refine List.filter_congr ?_
    intro v hv
    have hv2 : v ∈ (brandsAL rs).map Prod.snd :=
      ((sortByDesc_perm _ _).mem_iff).mp hv
    obtain ⟨p, hp, rfl⟩ := List.mem_map.mp hv2
    have hInv := brandsAL_inv rs p hp
    have hname : pyLower p.2.name = p.1 ∧ ¬ (pyLower p.2.name = "") := by
      unfold brandValKey at hInv
      by_cases he : pyLower p.2.name = ""
      · rw [if_pos he] at hInv
        cases hInv
      · rw [if_neg he] at hInv
        injection hInv with hInv
        exact ⟨hInv, he⟩
    apply decide_eq_decide.mpr
    unfold brandValKey
    rw [if_neg hname.2]
    exact ⟨fun h => by rw [h], fun h => Option.some.inj h⟩
  rw [hcong,
    filter_values_lookup brandValKey k (brandsAL rs) (brandsAL_inv rs)
      (brandsAL_nodup rs)
      (sortByDesc (fun x : BrandOut => x.mentions) ((brandsAL rs).map Prod.snd))
      (sortByDesc_perm (fun x : BrandOut => x.mentions) ((brandsAL rs).map Prod.snd))]
  cases alLookup k (brandsAL rs) <;> rfl

/-- C5 (amended): re-merging `merge([a,b])` with `c` agrees with
`merge([a,b,c])` on brands unconditionally — identical per-key merged
entries, hence identical mention totals, and the output brands lists
agree entry-for-entry on every normalized name — and the final
opportunities lists are identical, also unconditionally: the inner
first-5 truncation keeps a prefix of the insertion-ordered,
first-occurrence-wins opportunities dict, which the re-merge only
extends.  Provided the inner merge's top-8 recommendation truncation
dropped nothing (at most 8 distinct recommendation keys across `a` and
`b`), the per-key merged recommendation entries also agree.  (As stated
the claim is false: the inner top-8 truncation can change recommendation
totals — see the counterexample.) -/
theorem C5_merge_associativity_amended (a b c : AnalysisResult) :
    (∀ k, alLookup k (brandsAL [toAnalysisResult (merge_commercial_results [a, b]), c])
        = alLookup k (brandsAL [a, b, c]))
    ∧ (∀ k, ((merge_commercial_results
          [toAnalysisResult (merge_commercial_results [a, b]), c]).brands.filter
            (fun x => decide (pyLower x.name = k)))
        = ((merge_commercial_results [a, b, c]).brands.filter
            (fun x => decide (pyLower x.name = k))))
    ∧ ((recsAL [a, b]).length ≤ 8 →
        ∀ k, alLookup k (recsAL [toAnalysisResult (merge_commercial_results [a, b]), c])
          = alLookup k (recsAL [a, b, c]))
    ∧ (merge_commercial_results
          [toAnalysisResult (merge_commercial_results [a, b]), c]).opportunities
        = (merge_commercial_results [a, b, c]).opportunities := by
  refine ⟨brands_lookup_nested a b c, ?_,
    fun h8 => recs_lookup_nested a b c h8, opps_nested_take_eq a b c⟩
  intro k
  rw [brands_output_filter, brands_output_filter, brands_lookup_nested a b c k]

/-- Counterexample to C5 as stated: with `a` holding nine recommendation
items (eight at 10 endorsements, `i9` at 1), `b` empty and `c` endorsing
`i9` 100 more times, the nested merge reports `i9` with 100 endorsements
but the flat merge reports 101 — the inner top-8 truncation dropped
`i9`'s count. -/
theorem C5_merge_associativity_counterexample :
    ((merge_commercial_results
        [toAnalysisResult (merge_commercial_results
          [AnalysisResult.ok []
            [⟨"i1", none, none, some 10⟩, ⟨"i2", none, none, some 10⟩,
             ⟨"i3", none, none, some 10⟩, ⟨"i4", none, none, some 10⟩,
             ⟨"i5", none, none, some 10⟩, ⟨"i6", none, none, some 10⟩,
             ⟨"i7", none, none, some 10⟩, ⟨"i8", none, none, some 10⟩,
             ⟨"i9", none, none, some 1⟩] [],
           AnalysisResult.ok [] [] []]),
         AnalysisResult.ok [] [⟨"i9", none, none, some 100⟩] []]).recommendations.filter
          (fun r => decide (r.item = "i9"))).map RecOut.endorsements = [100]
    ∧ ((merge_commercial_results
        [AnalysisResult.ok []
          [⟨"i1", none, none, some 10⟩, ⟨"i2", none, none, some 10⟩,
           ⟨"i3", none, none, some 10⟩, ⟨"i4", none, none, some 10⟩,
           ⟨"i5", none, none, some 10⟩, ⟨"i6", none, none, some 10⟩,
           ⟨"i7", none, none, some 10⟩, ⟨"i8", none, none, some 10⟩,
           ⟨"i9", none, none, some 1⟩] [],
         AnalysisResult.ok [] [] [],
         AnalysisResult.ok [] [⟨"i9", none, none, some 100⟩] []]).recommendations.filter
          (fun r => decide (r.item = "i9"))).map RecOut.endorsements = [101] := by
  decide

/-- Witness for C5 (amended) at small concrete results, discharging the
top-8 side condition of the recommendations conjunct concretely. -/
theorem C5_merge_associativity_witness :
    (merge_commercial_results
        [toAnalysisResult (merge_commercial_results
          [AnalysisResult.ok [⟨"Nike", none, some "neutral", some 3⟩]
             [⟨"shoes", none, none, some 2⟩] [⟨"Nike", "partnership", "r1"⟩],
           AnalysisResult.ok [⟨"NIKE", none, some "positive", some 2⟩] [] []]),
         AnalysisResult.ok [] [⟨"Shoes", none, none, some 1⟩]
           [⟨"nike", "partnership", "r2"⟩]]).opportunities
      = (merge_commercial_results
          [AnalysisResult.ok [⟨"Nike", none, some "neutral", some 3⟩]
             [⟨"shoes", none, none, some 2⟩] [⟨"Nike", "partnership", "r1"⟩],
           AnalysisResult.ok [⟨"NIKE", none, some "positive", some 2⟩] [] [],
           AnalysisResult.ok [] [⟨"Shoes", none, none, some 1⟩]
             [⟨"nike", "partnership", "r2"⟩]]).opportunities
    ∧ alLookup "nike"
        (brandsAL
          [toAnalysisResult (merge_commercial_results
            [AnalysisResult.ok [⟨"Nike", none, some "neutral", some 3⟩]
               [⟨"shoes", none, none, some 2⟩] [⟨"Nike", "partnership", "r1"⟩],
             AnalysisResult.ok [⟨"NIKE", none, some "positive", some 2⟩] [] []]),
           AnalysisResult.ok [] [⟨"Shoes", none, none, some 1⟩]
             [⟨"nike", "partnership", "r2"⟩]])
      = alLookup "nike"
          (brandsAL
            [AnalysisResult.ok [⟨"Nike", none, some "neutral", some 3⟩]
               [⟨"shoes", none, none, some 2⟩] [⟨"Nike", "partnership", "r1"⟩],
             AnalysisResult.ok [⟨"NIKE", none, some "positive", some 2⟩] [] [],
             AnalysisResult.ok [] [⟨"Shoes", none, none, some 1⟩]
               [⟨"nike", "partnership", "r2"⟩]])
    ∧ alLookup "shoes"
        (recsAL
          [toAnalysisResult (merge_commercial_results
            [AnalysisResult.ok [⟨"Nike", none, some "neutral", some 3⟩]
               [⟨"shoes", none, none, some 2⟩] [⟨"Nike", "partnership", "r1"⟩],
             AnalysisResult.ok [⟨"NIKE", none, some "positive", some 2⟩] [] []]),
           AnalysisResult.ok [] [⟨"Shoes", none, none, some 1⟩]
             [⟨"nike", "partnership", "r2"⟩]])
      = alLookup "shoes"
          (recsAL
            [AnalysisResult.ok [⟨"Nike", none, some "neutral", some 3⟩]
               [⟨"shoes", none, none, some 2⟩] [⟨"Nike", "partnership", "r1"⟩],
             AnalysisResult.ok [⟨"NIKE", none, some "positive", some 2⟩] [] [],
             AnalysisResult.ok [] [⟨"Shoes", none, none, some 1⟩]
               [⟨"nike", "partnership", "r2"⟩]]) :=
  ⟨(C5_merge_associativity_amended
      (AnalysisResult.ok [⟨"Nike", none, some "neutral", some 3⟩]
         [⟨"shoes", none, none, some 2⟩] [⟨"Nike", "partnership", "r1"⟩])
      (AnalysisResult.ok [⟨"NIKE", none, some "positive", some 2⟩] [] [])
      (AnalysisResult.ok [] [⟨"Shoes", none, none, some 1⟩]
         [⟨"nike", "partnership", "r2"⟩])).2.2.2,
   (C5_merge_associativity_amended
      (AnalysisResult.ok [⟨"Nike", none, some "neutral", some 3⟩]
         [⟨"shoes", none, none, some 2⟩] [⟨"Nike", "partnership", "r1"⟩])
      (AnalysisResult.ok [⟨"NIKE", none, some "positive", some 2⟩] [] [])
      (AnalysisResult.ok [] [⟨"Shoes", none, none, some 1⟩]
         [⟨"nike", "partnership", "r2"⟩])).1 "nike",
   (C5_merge_associativity_amended
      (AnalysisResult.ok [⟨"Nike", none, some "neutral", some 3⟩]
         [⟨"shoes", none, none, some 2⟩] [⟨"Nike", "partnership", "r1"⟩])
      (AnalysisResult.ok [⟨"NIKE", none, some "positive", some 2⟩] [] [])
      (AnalysisResult.ok [] [⟨"Shoes", none, none, some 1⟩]
         [⟨"nike", "partnership", "r2"⟩])).2.2.1 (by decide) "shoes"⟩

end HotGossip
